import Mathlib

/-!
A formal model of the duplicate-image finder (`duplicate_finder.py`).

The Python program is embedded shallowly:

* `DisjointSet` (union-find with path compression and union by rank) is
  modelled with the parent and rank dictionaries as total functions that are
  meaningful on the element list `elems`; the recursive `find` is given
  explicit fuel (`elems.length + 1` always suffices on well-formed states,
  which is proved, so the `Option` never degenerates on the states the
  program builds).
* The worker thread `DuplicateFinderWorker.run` is a pure function from an
  environment (the discovered paths, the perceptual hash, decode success,
  pairwise cosine similarity, encoder success, and the value of the stop
  event at each successive poll) to the list of events it produces: queue
  messages and stop-event polls, in program order.
* The GUI-side resolution logic (`process_queue`'s duplicate_group branch,
  `confirm_selection`, `skip_group`, `start_auto_delete`) is modelled as a
  state machine over `AppState`; `os.remove` attempts are returned as an
  explicit list of attempted paths whose success is decided by the
  environment's `deleteOk`.

Filesystem walking, the GUI widgets, and the actual hash/embedding
computations are inputs of the model, not part of it.
-/

set_option linter.unusedSectionVars false
set_option linter.unusedVariables false

namespace DupFinder

section DSU

variable {α : Type} [DecidableEq α]

/-- Model of the Python class `DisjointSet`: the `parent` and `rank`
dictionaries become total functions, meaningful on the constructed element
list `elems`. -/
structure DisjointSet (α : Type) where
  elems : List α
  parent : α → α
  rank : α → Nat

/-- `DisjointSet.__init__(elements)`: every element is its own parent with
rank 0. -/
def DisjointSet.ofElements (elements : List α) : DisjointSet α :=
  ⟨elements, fun e => e, fun _ => 0⟩

/-- The recursive `DisjointSet.find` with explicit fuel.  It returns the root
together with the parent map after path compression
(`self.parent[element] = self.find(self.parent[element])`).  `none` models
running out of fuel, which cannot happen on well-formed states with fuel
`elems.length + 1`. -/
def findFuel (f : α → α) : Nat → α → Option (α × (α → α))
  | 0, _ => none
  | fuel + 1, x =>
    if f x = x then some (x, f)
    else
      match findFuel f fuel (f x) with
      | none => none
      | some (r, g) => some (r, Function.update g x r)

/-- `DisjointSet.find(element)`, with the fuel that always suffices on
well-formed states. -/
def DisjointSet.find (s : DisjointSet α) (x : α) : Option (α × DisjointSet α) :=
  match findFuel s.parent (s.elems.length + 1) x with
  | none => none
  | some (r, g) => some (r, { s with parent := g })

/-- `DisjointSet.union(element1, element2)`: find both roots, then merge by
rank exactly as the Python branches do, returning whether a merge occurred. -/
def DisjointSet.union (s : DisjointSet α) (x y : α) : Option (Bool × DisjointSet α) :=
  match s.find x with
  | none => none
  | some (r1, s1) =>
    match s1.find y with
    | none => none
    | some (r2, s2) =>
      if r1 = r2 then some (false, s2)
      else if s2.rank r1 < s2.rank r2 then
        some (true, { s2 with parent := Function.update s2.parent r1 r2 })
      else if s2.rank r2 < s2.rank r1 then
        some (true, { s2 with parent := Function.update s2.parent r2 r1 })
      else
        some (true, { s2 with parent := Function.update s2.parent r2 r1,
                              rank := Function.update s2.rank r1 (s2.rank r1 + 1) })

/-- `x` reaches the root `r` in the parent map `f`: some iterate of `f`
takes `x` to `r`, and `r` is a fixed point.  This is the partition semantics
of a union-find state. -/
def RootedAt (f : α → α) (x r : α) : Prop :=
  (∃ n, f^[n] x = r) ∧ f r = r

/-- `x` reaches some root: the parent chain from `x` terminates. -/
def Reaches (f : α → α) (x : α) : Prop :=
  ∃ r, RootedAt f x r

/-- The parent map stays inside the element list. -/
def DisjointSet.Closed (s : DisjointSet α) : Prop :=
  ∀ x ∈ s.elems, s.parent x ∈ s.elems

/-- Every member's parent chain terminates at a root: the parent map is an
acyclic forest on the members. -/
def DisjointSet.Forest (s : DisjointSet α) : Prop :=
  ∀ x ∈ s.elems, Reaches s.parent x

/-- The well-formedness invariant of a `DisjointSet` state. -/
def DisjointSet.Inv (s : DisjointSet α) : Prop :=
  s.Closed ∧ s.Forest

/-- One operation on a `DisjointSet`: a `union` or a `find` call. -/
inductive DsuOp (α : Type) where
  | unionOp (x y : α)
  | findOp (x : α)

/-- The operation's arguments are members of the given element list (the
spec makes calling with a non-member a precondition violation). -/
def DsuOp.mems : DsuOp α → List α → Prop
  | .unionOp x y, l => x ∈ l ∧ y ∈ l
  | .findOp x, l => x ∈ l

/-- Run one operation, keeping the state it leaves behind. -/
def runOp (s : DisjointSet α) : DsuOp α → Option (DisjointSet α)
  | .unionOp x y => (s.union x y).map Prod.snd
  | .findOp x => (s.find x).map Prod.snd

/-- Run a sequence of operations from a starting state. -/
def runOps : DisjointSet α → List (DsuOp α) → Option (DisjointSet α)
  | s, [] => some s
  | s, op :: rest =>
    match runOp s op with
    | none => none
    | some s' => runOps s' rest

variable {P H : Type} [DecidableEq P] [DecidableEq H]

/-- Python dict insertion as `compute_hashes` uses it: append `p` to the
first entry keyed `h`, or add a new entry `(h, [p])` at the end. -/
def insertHash (m : List (H × List P)) (h : H) (p : P) : List (H × List P) :=
  match m with
  | [] => [(h, [p])]
  | kv :: rest =>
    if kv.1 = h then (kv.1, kv.2 ++ [p]) :: rest
    else kv :: insertHash rest h p

/-- One iteration of the `compute_hashes` loop: hash the path and insert it,
or skip it when decoding fails (`hash p = none`, the caught exception
branch). -/
def hashStep (hash : P → Option H) (m : List (H × List P)) (p : P) :
    List (H × List P) :=
  match hash p with
  | none => m
  | some h => insertHash m h p

/-- The accumulation loop of `compute_hashes`: one pass over the paths. -/
def computeHashesAll (hash : P → Option H) (paths : List P) : List (H × List P) :=
  paths.foldl (hashStep hash) []

/-- `compute_hashes(image_paths)`: bucket by perceptual hash, then keep only
buckets with more than one path. -/
def compute_hashes (hash : P → Option H) (paths : List P) : List (H × List P) :=
  (computeHashesAll hash paths).filter (fun kv => 1 < kv.2.length)

/-- The first bucket keyed `h` (Python dict lookup). -/
def bucketOf (m : List (H × List P)) (h : H) : List P :=
  match m.find? (fun kv => decide (kv.1 = h)) with
  | none => []
  | some kv => kv.2

/-- A message the worker puts on the data queue.  Status texts carry no
information the model needs, so `status` is kept opaque. -/
inductive Msg (P : Type) where
  | status
  | duplicateGroup (g : List P)
  | done
deriving DecidableEq

/-- One observable step of the worker: a queue `put` or a poll of
`stop_event.is_set()` together with the value it read. -/
inductive Event (P : Type) where
  | poll (r : Bool)
  | put (m : Msg P)
deriving DecidableEq

/-- How the bucket loop of `run` ended: fell off the end, broke out on a
stop-event poll, or raised (the encoder failing is the uncaught exception
source inside the loop). -/
inductive BOut where
  | normal
  | stopped
  | failed
deriving DecidableEq

/-- The worker's environment: everything `DuplicateFinderWorker.run` reads
from the outside world.  `stop k` is the value `stop_event.is_set()` returns
at the k-th poll; `sim a b` abstracts `cos_scores[i][j]` for the images at
paths `a` and `b`; `encodeOk` tells whether `model.encode` succeeds on a
batch. -/
structure WorkerEnv (P H : Type) where
  paths : List P
  hash : P → Option H
  decode : P → Bool
  sim : P → P → ℚ
  encodeOk : List P → Bool
  stop : Nat → Bool

/-- The fixed similarity threshold 0.98 of the source. -/
def simThreshold : ℚ := mkRat 98 100

/-- The distinct endpoints of the edge list, in first-appearance order
(Python builds a `set`; the model fixes its iteration order to insertion
order, which no proved property depends on). -/
def uniquePaths (edges : List (P × P)) : List P :=
  ((edges.map (fun e => [e.1, e.2])).flatten).dedup

/-- `for p1, p2 in current_sub_group_potential_duplicates: dsu.union(p1, p2)`.
A failed (out-of-fuel) union leaves the state unchanged; on the states the
worker builds this never happens. -/
def unionAll (edges : List (P × P)) (s : DisjointSet P) : DisjointSet P :=
  edges.foldl (fun t e =>
    match t.union e.1 e.2 with
    | some pr => pr.2
    | none => t) s

/-- The grouping loop: for each path, `root = dsu.find(path)` (which
compresses, so the state is threaded) and append the path to the root's
bucket.  A failed find skips the path; on the worker's states this never
happens. -/
def groupByRoot : DisjointSet P → List P → List (P × List P) → List (P × List P)
  | _, [], acc => acc
  | s, p :: rest, acc =>
    match s.find p with
    | some pr => groupByRoot pr.2 rest (insertHash acc pr.1 p)
    | none => groupByRoot s rest acc

/-- Lines 110-128 of `run`: collect the distinct endpoints, union every
edge, group by root and keep the components with more than one member. -/
def clusterGroups (edges : List (P × P)) : List (List P) :=
  ((groupByRoot (unionAll edges (DisjointSet.ofElements (uniquePaths edges)))
      (uniquePaths edges) []).map Prod.snd).filter (fun g => 1 < g.length)

/-- Lines 77-85 of `run`: decode each image of the bucket, polling the stop
event first each iteration (`break` on true), collecting the decodable
paths.  Returns (events, valid paths, next poll index). -/
def decodeLoop (env : WorkerEnv P H) : List P → Nat → List (Event P) × List P × Nat
  | [], k => ([], [], k)
  | p :: rest, k =>
    if env.stop k then ([Event.poll true], [], k + 1)
    else
      let r := decodeLoop env rest (k + 1)
      (Event.poll false :: r.1, (if env.decode p then p :: r.2.1 else r.2.1), r.2.2)

/-- Lines 101-105 of `run`: the inner `j` loop for a fixed `i`-th image,
polling before each pair and collecting edges scoring at or above the
threshold. -/
def pairLoopInner (env : WorkerEnv P H) (p : P) :
    List P → Nat → List (Event P) × List (P × P) × Nat
  | [], k => ([], [], k)
  | q :: rest, k =>
    if env.stop k then ([Event.poll true], [], k + 1)
    else
      let r := pairLoopInner env p rest (k + 1)
      (Event.poll false :: r.1,
       (if simThreshold ≤ env.sim p q then (p, q) :: r.2.1 else r.2.1), r.2.2)

/-- Lines 100-105 of `run`: the outer `i` loop; a `break` in the inner loop
does not break the outer one. -/
def pairLoopOuter (env : WorkerEnv P H) :
    List P → Nat → List (Event P) × List (P × P) × Nat
  | [], k => ([], [], k)
  | p :: rest, k =>
    let a := pairLoopInner env p rest k
    let b := pairLoopOuter env rest a.2.2
    (a.1 ++ b.1, a.2.1 ++ b.2.1, b.2.2)

/-- Lines 70-133 of `run`: the loop over pre-filtered buckets.  Per bucket:
poll (line 71, break), decode loop, poll (line 87, break), the `< 2` guard
(line 90, continue), encode (an encoder failure is the uncaught exception),
the pairwise scoring loops, poll (line 107, break), then cluster and put
one `duplicate_group` message per final group (line 132). -/
def bucketLoop (env : WorkerEnv P H) : List (List P) → Nat → List (Event P) × Nat × BOut
  | [], k => ([], k, BOut.normal)
  | b :: rest, k =>
    if env.stop k then ([Event.poll true], k + 1, BOut.stopped)
    else
      let d := decodeLoop env b (k + 1)
      if env.stop d.2.2 then
        (Event.poll false :: d.1 ++ [Event.poll true], d.2.2 + 1, BOut.stopped)
      else if d.2.1.length < 2 then
        let rr := bucketLoop env rest (d.2.2 + 1)
        (Event.poll false :: d.1 ++ Event.poll false :: rr.1, rr.2)
      else if env.encodeOk d.2.1 then
        let pr := pairLoopOuter env d.2.1 (d.2.2 + 1)
        if env.stop pr.2.2 then
          (Event.poll false :: d.1 ++ Event.poll false :: pr.1 ++ [Event.poll true],
           pr.2.2 + 1, BOut.stopped)
        else
          let puts := if pr.2.1.isEmpty then []
            else (clusterGroups pr.2.1).map (fun g => Event.put (Msg.duplicateGroup g))
          let rr := bucketLoop env rest (pr.2.2 + 1)
          (Event.poll false :: d.1 ++ Event.poll false :: pr.1 ++ Event.poll false ::
            (puts ++ rr.1), rr.2)
      else
        (Event.poll false :: d.1 ++ [Event.poll false], d.2.2 + 1, BOut.failed)

/-- Lines 135-147 of `run`: what follows the bucket loop, given its events,
its final poll index and how it ended.  An exception (encoder failure) goes
to the `except` block: a status and the `finally` done.  Otherwise line 135
polls the stop event once more; if set, an explicit status and done precede
the `finally` done; if not, the final status and the `finally` done. -/
def runTail (stop : Nat → Bool) (r : List (Event P) × Nat × BOut) : List (Event P) :=
  match r.2.2 with
  | BOut.failed => r.1 ++ [Event.put Msg.status, Event.put Msg.done]
  | _ =>
    if stop r.2.1 then
      r.1 ++ [Event.poll true, Event.put Msg.status, Event.put Msg.done,
        Event.put Msg.done]
    else
      r.1 ++ [Event.poll false, Event.put Msg.status, Event.put Msg.done]

/-- `DuplicateFinderWorker.run` (lines 47-147) as the list of events it
produces, in program order.  Early returns put an explicit `done` and the
`finally` block (line 147) always puts another. -/
def runTrace (env : WorkerEnv P H) : List (Event P) :=
  if env.paths.isEmpty then
    [Event.put Msg.status, Event.put Msg.status, Event.put Msg.done, Event.put Msg.done]
  else if (compute_hashes env.hash env.paths).isEmpty then
    [Event.put Msg.status, Event.put Msg.status, Event.put Msg.status,
     Event.put Msg.status, Event.put Msg.status, Event.put Msg.done, Event.put Msg.done]
  else
    [Event.put Msg.status, Event.put Msg.status, Event.put Msg.status,
      Event.put Msg.status, Event.put Msg.status] ++
    runTail env.stop (bucketLoop env ((compute_hashes env.hash env.paths).map Prod.snd) 0)

/-- The number of `("done", None)` messages in a trace. -/
def doneCount (t : List (Event P)) : Nat :=
  (t.filter (fun e => decide (e = Event.put Msg.done))).length

/-- No `duplicate_group` message occurs in the trace segment. -/
def noDup (t : List (Event P)) : Prop :=
  ∀ g : List P, Event.put (Msg.duplicateGroup g) ∉ t

/-- After any poll that observed the stop event set, no `duplicate_group`
message follows. -/
def Safe : List (Event P) → Prop
  | [] => True
  | e :: rest => (e = Event.poll true → noDup rest) ∧ Safe rest

/-- The stop event is sticky: once a poll reads true, every later poll
does (the GUI only ever sets it, never clears it). -/
def StopMono (stop : Nat → Bool) : Prop :=
  ∀ k, stop k = true → stop (k + 1) = true

/-- The runs on which `run` reaches one of its three explicit
`data_queue.put(("done", None)); return` statements (no image files, no
non-singleton hash bucket, stop event observed at line 135) before the
`finally` block puts its own. -/
def earlyExit (env : WorkerEnv P H) : Prop :=
  env.paths = [] ∨ compute_hashes env.hash env.paths = [] ∨
    ((bucketLoop env ((compute_hashes env.hash env.paths).map Prod.snd) 0).2.2 ≠ BOut.failed ∧
      env.stop (bucketLoop env ((compute_hashes env.hash env.paths).map Prod.snd) 0).2.1 = true)

/-- The status a duplicate group carries on the GUI side. -/
inductive GStatus where
  | pending
  | kept_one
  | all_deleted
  | skipped
deriving DecidableEq

/-- One entry of `self.all_duplicates`:
`{"id": duplicate_id, "paths": group_paths, "status": ...}`. -/
structure GroupEntry (P : Type) where
  id : Nat
  paths : List P
  status : GStatus
deriving DecidableEq

/-- The GUI-side state `confirm_selection`, `skip_group`, `process_queue`
and `start_auto_delete` read and write.  `duplicate_buttons` keeps only the
keys of the button dictionary. -/
structure AppState (P : Type) where
  all_duplicates : List (GroupEntry P)
  duplicate_buttons : List Nat
  auto_delete_active : Bool
  found_groups_count : Nat
  deleted_pictures_count : Nat
  selected_image_path : Option P
  current_pair_paths : Option (List P)
deriving DecidableEq

/-- The GUI side's environment: whether `os.remove` succeeds on a path. -/
structure AppEnv (P : Type) where
  deleteOk : P → Bool

/-- The `for item in self.all_duplicates: if item["paths"] == group_paths:
item["status"] = st; break` pattern: set the status of the first entry
whose paths equal `g`. -/
def markFirstByPaths (l : List (GroupEntry P)) (g : List P) (st : GStatus) :
    List (GroupEntry P) :=
  match l with
  | [] => []
  | e :: rest =>
    if e.paths = g then { e with status := st } :: rest
    else e :: markFirstByPaths rest g st

/-- `update_group_status_and_remove_button` (lines 482-491): delete the
button dictionary key and remove every entry with the given id from
`all_duplicates`. -/
def removeById (s : AppState P) (gid : Nat) : AppState P :=
  { s with duplicate_buttons := s.duplicate_buttons.erase gid,
           all_duplicates := s.all_duplicates.filter (fun d => decide (d.id ≠ gid)) }

/-- `clear_viewer_and_selection` (lines 494-504): reset the selection. -/
def clearViewer (s : AppState P) : AppState P :=
  { s with selected_image_path := none, current_pair_paths := none }

/-- `confirm_selection` (lines 391-456).  The returned list is the sequence
of paths on which `os.remove` was attempted, in program order; each
attempt's success is `env.deleteOk` and a failure never stops the loop. -/
def confirm_selection (env : AppEnv P) (s : AppState P) : AppState P × List P :=
  match s.current_pair_paths with
  | none => (s, [])
  | some group_paths =>
    match s.selected_image_path with
    | none =>
      -- no image selected: delete every path, then look the group up
      let dcount := (group_paths.filter env.deleteOk).length
      let s1 : AppState P :=
        { s with deleted_pictures_count := s.deleted_pictures_count + dcount }
      match s1.all_duplicates.find? (fun e => decide (e.paths = group_paths)) with
      | some e =>
        let s2 : AppState P :=
          { s1 with all_duplicates :=
              markFirstByPaths s1.all_duplicates group_paths GStatus.all_deleted }
        (clearViewer (removeById s2 e.id), group_paths)
      | none => (clearViewer s1, group_paths)
    | some keep =>
      -- an image is selected: look the group up first, then delete the rest
      match s.all_duplicates.find? (fun e => decide (e.paths = group_paths)) with
      | none => (s, [])
      | some e =>
        let attempts := group_paths.filter (fun p => decide (p ≠ keep))
        let dcount := (attempts.filter env.deleteOk).length
        let s0 : AppState P :=
          { s with all_duplicates :=
              markFirstByPaths s.all_duplicates group_paths GStatus.kept_one }
        let s1 : AppState P :=
          { s0 with deleted_pictures_count := s0.deleted_pictures_count + dcount }
        (clearViewer (removeById s1 e.id), attempts)

/-- `skip_group` (lines 458-479). -/
def skip_group (s : AppState P) : AppState P :=
  match s.current_pair_paths with
  | none => s
  | some g =>
    match s.all_duplicates.find? (fun e => decide (e.paths = g)) with
    | none => s
    | some e =>
      clearViewer (removeById
        { s with all_duplicates := markFirstByPaths s.all_duplicates g GStatus.skipped }
        e.id)

/-- The `duplicate_group` branch of `process_queue` (lines 292-312): ignore
groups of length at most one; otherwise register the group with id
`len(self.all_duplicates)`, and either resolve it at once (auto-delete
active) or create its button.  Also returns the deletion attempts made. -/
def registerGroup (env : AppEnv P) (s : AppState P) (group_paths : List P) :
    AppState P × List P :=
  if 1 < group_paths.length then
    let did := s.all_duplicates.length
    let s1a : AppState P :=
      { s with all_duplicates :=
          s.all_duplicates ++ [⟨did, group_paths, GStatus.pending⟩] }
    let s1 : AppState P :=
      { s1a with found_groups_count := s1a.found_groups_count + 1 }
    if s1.auto_delete_active then
      confirm_selection env
        { s1 with selected_image_path := group_paths.head?,
                  current_pair_paths := some group_paths }
    else
      ({ s1 with duplicate_buttons :=
          if did ∈ s1.duplicate_buttons then s1.duplicate_buttons
          else s1.duplicate_buttons ++ [did] }, [])
  else (s, [])

/-- The drain loop of `start_auto_delete` (lines 584-590): iterate over a
copy of `all_duplicates`, resolving each still-pending entry by selecting
its first path and confirming.  (In Python the copied entries are shared
dict references; the model reads the copied status, which agrees whenever
the entries' path lists are distinct, as in every state this development
evaluates the loop on.) -/
def selectEntry (s : AppState P) (e : GroupEntry P) : AppState P :=
  { s with selected_image_path := e.paths.head?,
           current_pair_paths := some e.paths }

/-- The body of the drain: `self.selected_image_path = item["paths"][0];
self.current_pair_paths = item["paths"]; self.confirm_selection()` for each
still-pending copied entry. -/
def drainLoop (env : AppEnv P) : List (GroupEntry P) → AppState P → AppState P × List P
  | [], s => (s, [])
  | e :: rest, s =>
    if e.status = GStatus.pending then
      ((drainLoop env rest (confirm_selection env (selectEntry s e)).1).1,
       (confirm_selection env (selectEntry s e)).2 ++
         (drainLoop env rest (confirm_selection env (selectEntry s e)).1).2)
    else drainLoop env rest s

/-- `start_auto_delete` (lines 577-590): set the flag, then drain pending
groups. -/
def start_auto_delete (env : AppEnv P) (s : AppState P) : AppState P × List P :=
  drainLoop env s.all_duplicates { s with auto_delete_active := true }

/-- The deletions auto-resolution performs on a group: every path other than
the first. -/
def keepFirstAttempts (l : List P) : List P :=
  match l with
  | [] => []
  | p :: rest => rest.filter (fun q => decide (q ≠ p))

/-- The GUI state right after `DuplicateFinderApp.__init__`: no groups, no
buttons, zero counters, nothing selected; the auto-delete flag comes from
the checkbox. -/
def initApp (auto : Bool) : AppState P :=
  ⟨[], [], auto, 0, 0, none, none⟩

/-- Concrete worker runs used to evaluate the model on explicit inputs. -/
def c1cexEnv : WorkerEnv Nat Nat :=
  ⟨[], fun _ => none, fun _ => true, fun _ _ => 0, fun _ => true, fun _ => false⟩

def c3wEnv : WorkerEnv Nat Nat :=
  ⟨[7, 8], fun _ => some 0, fun _ => true, fun _ _ => 1, fun _ => true, fun _ => true⟩

def c4wEnv : WorkerEnv Nat Nat :=
  ⟨[0, 1], fun _ => some 0, fun _ => true, fun _ _ => 1, fun _ => true, fun _ => false⟩

def c5wEnv : WorkerEnv Nat Nat :=
  ⟨[0, 1], fun _ => some 0, fun _ => true, fun _ _ => 1, fun _ => true, fun _ => false⟩

/-- A concrete GUI history: register two groups, resolve the first, then
register a third while two ids collide. -/
def c2Env : AppEnv Nat := ⟨fun _ => true⟩

def c2s1 : AppState Nat := (registerGroup c2Env (initApp false) [0, 1]).1

def c2s2 : AppState Nat := (registerGroup c2Env c2s1 [2, 3]).1

def c2s3 : AppState Nat :=
  (confirm_selection c2Env
    { c2s2 with selected_image_path := some 0, current_pair_paths := some [0, 1] }).1

def c2s4 : AppState Nat := (registerGroup c2Env c2s3 [4, 5]).1

/-- The same history, rebuilt for the auto-resolve scenario. -/
def c6Env : AppEnv Nat := ⟨fun _ => true⟩

def c6s1 : AppState Nat := (registerGroup c6Env (initApp false) [0, 1]).1

def c6s2 : AppState Nat := (registerGroup c6Env c6s1 [2, 3]).1

def c6s3 : AppState Nat :=
  (confirm_selection c6Env
    { c6s2 with selected_image_path := some 0, current_pair_paths := some [0, 1] }).1

def c6s4 : AppState Nat := (registerGroup c6Env c6s3 [4, 5]).1

/-- A concrete well-formed state for the auto-resolve drain. -/
def c6wEnv : AppEnv Nat := ⟨fun _ => true⟩

def c6wState : AppState Nat :=
  ⟨[⟨0, [0, 1], GStatus.pending⟩], [0], true, 1, 0, none, none⟩

/-- A concrete resolution scenario for `confirm_selection`. -/
def c8Env : AppEnv Nat := ⟨fun _ => true⟩

def c8s : AppState Nat :=
  ⟨[⟨0, [0, 1, 2], GStatus.pending⟩], [0], false, 1, 0, some 1, some [0, 1, 2]⟩

theorem rootedAt_self {f : α → α} {r : α} (h : f r = r) : RootedAt f r r :=
  ⟨⟨0, rfl⟩, h⟩

theorem rootedAt_unique {f : α → α} {x r r' : α}
    (h : RootedAt f x r) (h' : RootedAt f x r') : r = r' := by
  obtain ⟨⟨n, hn⟩, hr⟩ := h
  obtain ⟨⟨m, hm⟩, hr'⟩ := h'
  rcases le_total n m with hle | hle
  · obtain ⟨k, rfl⟩ := Nat.exists_eq_add_of_le hle
    have h1 : f^[n + k] x = f^[k] (f^[n] x) := by
      rw [Nat.add_comm, Function.iterate_add_apply]
    rw [hn, Function.iterate_fixed hr] at h1
    rw [← h1, hm]
  · obtain ⟨k, rfl⟩ := Nat.exists_eq_add_of_le hle
    have h1 : f^[m + k] x = f^[k] (f^[m] x) := by
      rw [Nat.add_comm, Function.iterate_add_apply]
    rw [hm, Function.iterate_fixed hr'] at h1
    rw [← h1, hn]

theorem rootedAt_of_parent {f : α → α} {x r : α} (h : RootedAt f (f x) r) :
    RootedAt f x r := by
  obtain ⟨⟨n, hn⟩, hr⟩ := h
  exact ⟨⟨n + 1, by rw [Function.iterate_succ_apply]; exact hn⟩, hr⟩

theorem rootedAt_parent {f : α → α} {x r : α} (h : RootedAt f x r) :
    RootedAt f (f x) r := by
  obtain ⟨⟨n, hn⟩, hr⟩ := h
  refine ⟨⟨n, ?_⟩, hr⟩
  rw [← Function.iterate_succ_apply]
  rw [Function.iterate_succ_apply']
  rw [hn, hr]

/-- A fixed point of `f` is still a fixed point after redirecting `x` to its
own root `r`. -/
theorem update_fixed {f : α → α} {x r : α} (hx : RootedAt f x r) {w : α}
    (hw : f w = w) : Function.update f x r w = w := by
  by_cases hwx : w = x
  · subst hwx
    have : r = w := rootedAt_unique hx (rootedAt_self hw)
    rw [Function.update_same, this]
  · rw [Function.update_noteq hwx, hw]

/-- Conversely, a fixed point of the redirected map is a fixed point of `f`. -/
theorem fixed_of_update_fixed {f : α → α} {x r : α} (hx : RootedAt f x r) {w : α}
    (hw : Function.update f x r w = w) : f w = w := by
  by_cases hwx : w = x
  · subst hwx
    rw [Function.update_same] at hw
    subst hw
    exact hx.2
  · rwa [Function.update_noteq hwx] at hw

/-- Redirecting `x` straight at its own root `r` (path compression) changes
no element's root. -/
theorem update_rootedAt {f : α → α} {x r : α} (hx : RootedAt f x r)
    (z w : α) : RootedAt (Function.update f x r) z w ↔ RootedAt f z w := by
  constructor
  · rintro ⟨⟨m, hm⟩, hw⟩
    have hwf : f w = w := fixed_of_update_fixed hx hw
    clear hw
    induction m generalizing z with
    | zero =>
      simp only [Function.iterate_zero, id_eq] at hm
      subst hm
      exact rootedAt_self hwf
    | succ m ih =>
      rw [Function.iterate_succ_apply] at hm
      by_cases hzx : z = x
      · subst hzx
        rw [Function.update_same] at hm
        have hr : RootedAt f r w := ih r hm
        have : r = w := rootedAt_unique (rootedAt_self hx.2) hr
        exact this ▸ hx
      · rw [Function.update_noteq hzx] at hm
        exact rootedAt_of_parent (ih (f z) hm)
  · rintro ⟨⟨n, hn⟩, hw⟩
    have hw' : Function.update f x r w = w := update_fixed hx hw
    refine ⟨?_, hw'⟩
    induction n generalizing z with
    | zero => exact ⟨0, hn⟩
    | succ n ih =>
      rw [Function.iterate_succ_apply] at hn
      by_cases hzx : z = x
      · subst hzx
        have : w = r := rootedAt_unique ⟨⟨n + 1, by rw [Function.iterate_succ_apply]; exact hn⟩, hw⟩ hx
        subst this
        exact ⟨1, by simp [Function.update_same]⟩
      · obtain ⟨m, hm⟩ := ih (f z) hn
        exact ⟨m + 1, by
          rw [Function.iterate_succ_apply, Function.update_noteq hzx]; exact hm⟩

/-- Linking root `r1` under root `r2` (the union step) sends everything that
reached `r1` to `r2` and leaves every other root alone. -/
theorem union_update_rootedAt {f : α → α} {r1 r2 : α} (h1 : f r1 = r1)
    (h2 : f r2 = r2) (hne : r1 ≠ r2) (z w : α) :
    RootedAt (Function.update f r1 r2) z w ↔
      ((RootedAt f z r1 ∧ w = r2) ∨ (RootedAt f z w ∧ w ≠ r1)) := by
  have hg1 : Function.update f r1 r2 r1 = r2 := Function.update_same _ _ _
  have hg2 : Function.update f r1 r2 r2 = r2 := by
    rw [Function.update_noteq (Ne.symm hne), h2]
  constructor
  · rintro ⟨⟨m, hm⟩, hw⟩
    induction m generalizing z with
    | zero =>
      simp only [Function.iterate_zero, id_eq] at hm
      subst hm
      have hzr1 : z ≠ r1 := by
        intro hz
        rw [hz, hg1] at hw
        exact hne hw.symm
      rw [Function.update_noteq hzr1] at hw
      exact Or.inr ⟨rootedAt_self hw, hzr1⟩
    | succ m ih =>
      rw [Function.iterate_succ_apply] at hm
      by_cases hz : z = r1
      · subst hz
        rw [hg1] at hm
        rw [Function.iterate_fixed hg2] at hm
        exact Or.inl ⟨rootedAt_self h1, hm.symm⟩
      · rw [Function.update_noteq hz] at hm
        rcases ih (f z) hm with ⟨ha, hb⟩ | ⟨ha, hb⟩
        · exact Or.inl ⟨rootedAt_of_parent ha, hb⟩
        · exact Or.inr ⟨rootedAt_of_parent ha, hb⟩
  · rintro (⟨⟨⟨n, hn⟩, _⟩, rfl⟩ | ⟨⟨⟨n, hn⟩, hwf⟩, hwr1⟩)
    · refine ⟨?_, hg2⟩
      induction n generalizing z with
      | zero =>
        simp only [Function.iterate_zero, id_eq] at hn
        subst hn
        exact ⟨1, by rw [Function.iterate_one]; exact hg1⟩
      | succ n ih =>
        rw [Function.iterate_succ_apply] at hn
        by_cases hz : z = r1
        · subst hz
          exact ⟨1, by rw [Function.iterate_one]; exact hg1⟩
        · obtain ⟨m, hm⟩ := ih (f z) hn
          exact ⟨m + 1, by
            rw [Function.iterate_succ_apply, Function.update_noteq hz]; exact hm⟩
    · have hww : Function.update f r1 r2 w = w := by
        rw [Function.update_noteq hwr1, hwf]
      refine ⟨?_, hww⟩
      induction n generalizing z with
      | zero =>
        simp only [Function.iterate_zero, id_eq] at hn
        exact ⟨0, hn⟩
      | succ n ih =>
        rw [Function.iterate_succ_apply] at hn
        have hz : z ≠ r1 := by
          intro hz
          subst hz
          rw [h1, Function.iterate_fixed h1] at hn
          exact hwr1 hn.symm
        obtain ⟨m, hm⟩ := ih (f z) hn
        exact ⟨m + 1, by
          rw [Function.iterate_succ_apply, Function.update_noteq hz]; exact hm⟩

/-- Full specification of `findFuel` on success: the returned element is the
root of `x`, the compressed map points `x` straight at it, changes parents
only to the root, and preserves every element's root. -/
theorem findFuel_spec {f : α → α} {fuel : Nat} {x r : α} {g : α → α}
    (h : findFuel f fuel x = some (r, g)) :
    RootedAt f x r ∧ g x = r ∧ (∀ z, g z = f z ∨ (g z = r ∧ RootedAt f z r)) ∧
      (∀ z w, RootedAt g z w ↔ RootedAt f z w) := by
  induction fuel generalizing x r g with
  | zero => simp [findFuel] at h
  | succ fuel ih =>
    rw [findFuel] at h
    by_cases hx : f x = x
    · rw [if_pos hx] at h
      simp only [Option.some.injEq, Prod.mk.injEq] at h
      obtain ⟨rfl, rfl⟩ := h
      exact ⟨rootedAt_self hx, hx, fun z => Or.inl rfl, fun z w => Iff.rfl⟩
    · rw [if_neg hx] at h
      cases hrec : findFuel f fuel (f x) with
      | none => rw [hrec] at h; simp at h
      | some pr =>
        obtain ⟨r0, g0⟩ := pr
        rw [hrec] at h
        simp only [Option.some.injEq, Prod.mk.injEq] at h
        obtain ⟨rfl, rfl⟩ := h
        obtain ⟨hroot, hg0x, hloc, hiff⟩ := ih hrec
        have hxr : RootedAt f x r0 := rootedAt_of_parent hroot
        have hg0root : RootedAt g0 x r0 := (hiff x r0).mpr hxr
        refine ⟨hxr, Function.update_same _ _ _, ?_, ?_⟩
        · intro z
          by_cases hz : z = x
          · subst hz; exact Or.inr ⟨Function.update_same _ _ _, hxr⟩
          · rw [Function.update_noteq hz]; exact hloc z
        · intro z w
          exact (update_rootedAt hg0root z w).trans (hiff z w)

/-- Termination of the parent chain, phrased so that the number of steps to
the root is a decidable search. -/
theorem reaches_iff {f : α → α} {x : α} :
    Reaches f x ↔ ∃ n, f (f^[n] x) = f^[n] x := by
  constructor
  · rintro ⟨r, ⟨n, hn⟩, hr⟩
    exact ⟨n, by rw [hn, hr]⟩
  · rintro ⟨n, hn⟩
    exact ⟨f^[n] x, ⟨n, rfl⟩, hn⟩

theorem iterate_mem {f : α → α} {l : List α} (hcl : ∀ z ∈ l, f z ∈ l) {x : α}
    (hx : x ∈ l) (k : Nat) : f^[k] x ∈ l := by
  induction k with
  | zero => simpa using hx
  | succ k ih =>
    rw [Function.iterate_succ_apply']
    exact hcl _ ih

/-- Pigeonhole bound: on a closed finite carrier the distance to the root is
at most the carrier's length, so fuel `l.length + 1` always suffices. -/
theorem rootSteps_lt_length {f : α → α} {l : List α} (hcl : ∀ z ∈ l, f z ∈ l)
    {x : α} (hx : x ∈ l) (h : ∃ n, f (f^[n] x) = f^[n] x) :
    Nat.find h < l.length + 1 := by
  by_contra hlt
  push_neg at hlt
  have hcard : l.toFinset.card < (Finset.range (Nat.find h + 1)).card := by
    rw [Finset.card_range]
    exact lt_of_le_of_lt (List.toFinset_card_le l) (by omega)
  obtain ⟨i, hi, j, hj, hij, hfij⟩ :=
    Finset.exists_ne_map_eq_of_card_lt_of_maps_to hcard
      (fun k _ => List.mem_toFinset.mpr (iterate_mem hcl hx k))
  rw [Finset.mem_range] at hi hj
  -- without loss of generality i < j
  rcases lt_or_gt_of_ne hij with hlt' | hlt'
  · exact absurd hfij (by
      have := Nat.find_min h (m := Nat.find h - (j - i)) (by omega)
      -- derive the contradiction from a repeated iterate
      exact fun heq => this (by
        have hrep : ∀ m, i ≤ m → f^[m] x = f^[m + (j - i)] x := by
          intro m hm
          obtain ⟨t, rfl⟩ := Nat.exists_eq_add_of_le hm
          calc f^[i + t] x = f^[t] (f^[i] x) := by
                rw [Nat.add_comm, Function.iterate_add_apply]
            _ = f^[t] (f^[j] x) := by rw [heq]
            _ = f^[t + j] x := by rw [← Function.iterate_add_apply]
            _ = f^[i + t + (j - i)] x := by
                congr 1
                omega
        have hd : f^[Nat.find h - (j - i)] x = f^[Nat.find h] x := by
          have := hrep (Nat.find h - (j - i)) (by omega)
          rw [this]
          congr 1
          omega
        rw [hd]
        exact Nat.find_spec h))
  · exact absurd hfij.symm (by
      have := Nat.find_min h (m := Nat.find h - (i - j)) (by omega)
      exact fun heq => this (by
        have hrep : ∀ m, j ≤ m → f^[m] x = f^[m + (i - j)] x := by
          intro m hm
          obtain ⟨t, rfl⟩ := Nat.exists_eq_add_of_le hm
          calc f^[j + t] x = f^[t] (f^[j] x) := by
                rw [Nat.add_comm, Function.iterate_add_apply]
            _ = f^[t] (f^[i] x) := by rw [heq]
            _ = f^[t + i] x := by rw [← Function.iterate_add_apply]
            _ = f^[j + t + (i - j)] x := by
                congr 1
                omega
        have hd : f^[Nat.find h - (i - j)] x = f^[Nat.find h] x := by
          have := hrep (Nat.find h - (i - j)) (by omega)
          rw [this]
          congr 1
          omega
        rw [hd]
        exact Nat.find_spec h))

/-- With fuel exceeding the distance to the root, `findFuel` succeeds. -/
theorem findFuel_isSome {f : α → α} {fuel : Nat} {x : α}
    (h : ∃ n, f (f^[n] x) = f^[n] x) (hfuel : Nat.find h < fuel) :
    (findFuel f fuel x).isSome := by
  induction fuel generalizing x with
  | zero => omega
  | succ fuel ih =>
    rw [findFuel]
    by_cases hx : f x = x
    · rw [if_pos hx]; rfl
    · rw [if_neg hx]
      have hd0 : Nat.find h ≠ 0 := by
        intro h0
        have := Nat.find_spec h
        rw [h0] at this
        simpa using hx this
      have hstep : ∃ n, f (f^[n] (f x)) = f^[n] (f x) := by
        refine ⟨Nat.find h - 1, ?_⟩
        have hiter : f^[Nat.find h - 1] (f x) = f^[Nat.find h] x := by
          rw [← Function.iterate_succ_apply]
          congr 1
          omega
        rw [hiter]
        exact Nat.find_spec h
      have hle : Nat.find hstep < fuel := by
        have : Nat.find hstep ≤ Nat.find h - 1 := by
          apply Nat.find_min' hstep
          have hiter : f^[Nat.find h - 1] (f x) = f^[Nat.find h] x := by
            rw [← Function.iterate_succ_apply]
            congr 1
            omega
          rw [hiter]
          exact Nat.find_spec h
        omega
      have := ih hstep hle
      cases hres : findFuel f fuel (f x) with
      | none => rw [hres] at this; simp at this
      | some pr => obtain ⟨r0, g0⟩ := pr; rfl

theorem rootedAt_mem {f : α → α} {l : List α} (hcl : ∀ z ∈ l, f z ∈ l)
    {x r : α} (hx : x ∈ l) (h : RootedAt f x r) : r ∈ l := by
  obtain ⟨⟨n, hn⟩, _⟩ := h
  exact hn ▸ iterate_mem hcl hx n

/-- On a well-formed state, `find` on a member never runs out of fuel. -/
theorem DisjointSet.find_isSome {s : DisjointSet α} (hInv : s.Inv) {x : α}
    (hx : x ∈ s.elems) : ∃ r s', s.find x = some (r, s') := by
  obtain ⟨hcl, hforest⟩ := hInv
  have h := reaches_iff.mp (hforest x hx)
  have hlt := rootSteps_lt_length hcl hx h
  have hsome := findFuel_isSome h hlt
  cases hres : findFuel s.parent (s.elems.length + 1) x with
  | none => rw [hres] at hsome; simp at hsome
  | some pr =>
    obtain ⟨r0, g0⟩ := pr
    exact ⟨r0, { s with parent := g0 }, by rw [DisjointSet.find, hres]⟩

/-- What a successful `find` returns: the root of `x` in the old parent map,
a parent map that now points `x` (and only elements of `x`'s path) straight
at that root, with the partition unchanged. -/
theorem DisjointSet.find_props {s : DisjointSet α} {x r : α} {s' : DisjointSet α}
    (h : s.find x = some (r, s')) :
    s'.elems = s.elems ∧ s'.rank = s.rank ∧ RootedAt s.parent x r ∧
      s'.parent x = r ∧ s'.parent r = r ∧
      (∀ z, s'.parent z = s.parent z ∨ (s'.parent z = r ∧ RootedAt s.parent z r)) ∧
      (∀ z w, RootedAt s'.parent z w ↔ RootedAt s.parent z w) := by
  rw [DisjointSet.find] at h
  cases hres : findFuel s.parent (s.elems.length + 1) x with
  | none => rw [hres] at h; simp at h
  | some pr =>
    obtain ⟨r0, g⟩ := pr
    rw [hres] at h
    simp only [Option.some.injEq, Prod.mk.injEq] at h
    obtain ⟨rfl, rfl⟩ := h
    obtain ⟨hroot, hgx, hloc, hiff⟩ := findFuel_spec hres
    refine ⟨rfl, rfl, hroot, hgx, ?_, hloc, hiff⟩
    have h0 : RootedAt g r0 r0 := (hiff r0 r0).mpr (rootedAt_self hroot.2)
    exact h0.2

/-- A successful `find` preserves the invariant. -/
theorem DisjointSet.find_inv {s : DisjointSet α} (hInv : s.Inv) {x r : α}
    {s' : DisjointSet α} (hx : x ∈ s.elems) (h : s.find x = some (r, s')) :
    s'.Inv := by
  obtain ⟨hcl, hforest⟩ := hInv
  obtain ⟨helems, _, hroot, _, _, hloc, hiff⟩ := DisjointSet.find_props h
  have hrmem : r ∈ s.elems := rootedAt_mem hcl hx hroot
  constructor
  · intro z hz
    rw [helems] at hz ⊢
    rcases hloc z with hz' | ⟨hz', _⟩
    · rw [hz']; exact hcl z hz
    · rw [hz']; exact hrmem
  · intro z hz
    rw [helems] at hz
    obtain ⟨w, hw⟩ := hforest z hz
    exact ⟨w, (hiff z w).mpr hw⟩

/-- On a well-formed state, `union` of two members always succeeds; the
returned flag is true exactly when the two roots differed, and the partition
afterwards is the old partition with (in the merge case) one of the two
roots redirected to the other. -/
theorem DisjointSet.union_spec {s : DisjointSet α} (hInv : s.Inv) {x y : α}
    (hx : x ∈ s.elems) (hy : y ∈ s.elems) :
    ∃ b s' rx ry, s.union x y = some (b, s') ∧ s'.elems = s.elems ∧ s'.Inv ∧
      RootedAt s.parent x rx ∧ RootedAt s.parent y ry ∧
      (b = true ↔ rx ≠ ry) ∧
      ((b = false ∧ ∀ z w, RootedAt s'.parent z w ↔ RootedAt s.parent z w) ∨
       (b = true ∧ ∃ keep drop,
         ((keep = rx ∧ drop = ry) ∨ (keep = ry ∧ drop = rx)) ∧
         ∀ z w, RootedAt s'.parent z w ↔
           ((RootedAt s.parent z drop ∧ w = keep) ∨
            (RootedAt s.parent z w ∧ w ≠ drop)))) := by
  obtain ⟨r1, s1, hfind1⟩ := DisjointSet.find_isSome hInv hx
  obtain ⟨helems1, hrank1, hroot1, hpx1, hpr1, hloc1, hiff1⟩ :=
    DisjointSet.find_props hfind1
  have hInv1 : s1.Inv := DisjointSet.find_inv hInv hx hfind1
  have hy1 : y ∈ s1.elems := helems1 ▸ hy
  obtain ⟨r2, s2, hfind2⟩ := DisjointSet.find_isSome hInv1 hy1
  obtain ⟨helems2, hrank2, hroot2, hpy2, hpr2, hloc2, hiff2⟩ :=
    DisjointSet.find_props hfind2
  have hInv2 : s2.Inv := DisjointSet.find_inv hInv1 hy1 hfind2
  -- roots with respect to the original parent map
  have hrootx : RootedAt s.parent x r1 := hroot1
  have hrooty : RootedAt s.parent y r2 := (hiff1 y r2).mp hroot2
  have helems : s2.elems = s.elems := helems2.trans helems1
  have hiff12 : ∀ z w, RootedAt s2.parent z w ↔ RootedAt s.parent z w :=
    fun z w => (hiff2 z w).trans (hiff1 z w)
  have hunfold : s.union x y =
      (if r1 = r2 then some (false, s2)
       else if s2.rank r1 < s2.rank r2 then
         some (true, { s2 with parent := Function.update s2.parent r1 r2 })
       else if s2.rank r2 < s2.rank r1 then
         some (true, { s2 with parent := Function.update s2.parent r2 r1 })
       else
         some (true, { s2 with parent := Function.update s2.parent r2 r1,
                               rank := Function.update s2.rank r1 (s2.rank r1 + 1) })) := by
    simp only [DisjointSet.union, hfind1, hfind2]
  by_cases hr : r1 = r2
  · subst hr
    refine ⟨false, s2, r1, r1, ?_, helems, hInv2, hrootx, hrooty, ?_, ?_⟩
    · rw [hunfold, if_pos rfl]
    · simp
    · exact Or.inl ⟨rfl, hiff12⟩
  · -- the two roots are fixed points of s2.parent
    have hs2r2 : s2.parent r2 = r2 := hpr2
    have hs2r1 : s2.parent r1 = r1 := by
      rcases hloc2 r1 with h' | ⟨_, h2⟩
      · rw [h']
        rcases hloc1 r1 with h'' | ⟨h'', _⟩
        · rw [h'']
          exact hrootx.2
        · exact h''
      · -- r1 would reach r2 in s1, yet r1 is a root of s1: contradiction
        exfalso
        have : RootedAt s1.parent r1 r1 := rootedAt_self hpr1
        exact hr (rootedAt_unique this h2)
    -- the merged state, in each of the three rank branches
    have hmerge : ∀ keep drop, keep = r1 ∧ drop = r2 ∨ keep = r2 ∧ drop = r1 →
        ∀ z w, RootedAt (Function.update s2.parent drop keep) z w ↔
          ((RootedAt s.parent z drop ∧ w = keep) ∨
           (RootedAt s.parent z w ∧ w ≠ drop)) := by
      rintro keep drop (⟨h1, h2⟩ | ⟨h1, h2⟩) z w
      · rw [h1, h2, union_update_rootedAt hs2r2 hs2r1 (Ne.symm hr) z w,
          hiff12 z r2, hiff12 z w]
      · rw [h1, h2, union_update_rootedAt hs2r1 hs2r2 hr z w,
          hiff12 z r1, hiff12 z w]
    have hinv' : ∀ keep drop, keep = r1 ∧ drop = r2 ∨ keep = r2 ∧ drop = r1 →
        ∀ rk : α → Nat,
        DisjointSet.Inv { s2 with parent := Function.update s2.parent drop keep,
                                  rank := rk } := by
      intro keep drop hkd rk
      have hkmem : keep ∈ s2.elems := by
        rcases hkd with ⟨h1, _⟩ | ⟨h1, _⟩
        · rw [h1]; exact helems ▸ rootedAt_mem hInv.1 hx hrootx
        · rw [h1]; exact helems ▸ rootedAt_mem hInv.1 hy hrooty
      constructor
      · intro z hz
        simp only at hz ⊢
        by_cases hzd : z = drop
        · subst hzd
          rw [Function.update_same]
          exact hkmem
        · rw [Function.update_noteq hzd]
          exact hInv2.1 z hz
      · intro z hz
        simp only at hz
        obtain ⟨w, hw⟩ := hInv2.2 z hz
        have hw' : RootedAt s.parent z w := (hiff12 z w).mp hw
        by_cases hwd : w = drop
        · refine ⟨keep, ?_⟩
          have hm := hmerge keep drop hkd z keep
          exact hm.mpr (Or.inl ⟨hwd ▸ hw', rfl⟩)
        · refine ⟨w, ?_⟩
          have hm := hmerge keep drop hkd z w
          exact hm.mpr (Or.inr ⟨hw', hwd⟩)
    by_cases hrank12 : s2.rank r1 < s2.rank r2
    · refine ⟨true, { s2 with parent := Function.update s2.parent r1 r2 }, r1, r2,
        ?_, helems, ?_, hrootx, hrooty, by simp [hr], ?_⟩
      · rw [hunfold, if_neg hr, if_pos hrank12]
      · exact hinv' r2 r1 (Or.inr ⟨rfl, rfl⟩) s2.rank
      · exact Or.inr ⟨rfl, r2, r1, Or.inr ⟨rfl, rfl⟩, hmerge r2 r1 (Or.inr ⟨rfl, rfl⟩)⟩
    · by_cases hrank21 : s2.rank r2 < s2.rank r1
      · refine ⟨true, { s2 with parent := Function.update s2.parent r2 r1 }, r1, r2,
          ?_, helems, ?_, hrootx, hrooty, by simp [hr], ?_⟩
        · rw [hunfold, if_neg hr, if_neg hrank12, if_pos hrank21]
        · exact hinv' r1 r2 (Or.inl ⟨rfl, rfl⟩) s2.rank
        · exact Or.inr ⟨rfl, r1, r2, Or.inl ⟨rfl, rfl⟩, hmerge r1 r2 (Or.inl ⟨rfl, rfl⟩)⟩
      · refine ⟨true, { s2 with parent := Function.update s2.parent r2 r1, rank := Function.update s2.rank r1 (s2.rank r1 + 1) }, r1, r2, ?_, helems, ?_, hrootx, hrooty, by simp [hr], ?_⟩
        · rw [hunfold, if_neg hr, if_neg hrank12, if_neg hrank21]
        · exact hinv' r1 r2 (Or.inl ⟨rfl, rfl⟩) _
        · exact Or.inr ⟨rfl, r1, r2, Or.inl ⟨rfl, rfl⟩, hmerge r1 r2 (Or.inl ⟨rfl, rfl⟩)⟩

/-- The freshly constructed state is well formed: everyone is a root. -/
theorem ofElements_inv (elements : List α) : (DisjointSet.ofElements elements).Inv :=
  ⟨fun _ hx => hx, fun x _ => ⟨x, ⟨0, rfl⟩, rfl⟩⟩

/-- Any single member operation succeeds and preserves the invariant and the
element list. -/
theorem runOp_spec {s : DisjointSet α} (hInv : s.Inv) {op : DsuOp α}
    (hmem : op.mems s.elems) :
    ∃ s', runOp s op = some s' ∧ s'.elems = s.elems ∧ s'.Inv := by
  cases op with
  | unionOp x y =>
    obtain ⟨hx, hy⟩ := hmem
    obtain ⟨b, s', rx, ry, heq, helems, hinv, -, -, -, -⟩ :=
      DisjointSet.union_spec hInv hx hy
    exact ⟨s', by simp [runOp, heq], helems, hinv⟩
  | findOp x =>
    obtain ⟨r, s', heq⟩ := DisjointSet.find_isSome hInv hmem
    obtain ⟨helems, -, -, -, -, -, -⟩ := DisjointSet.find_props heq
    exact ⟨s', by simp [runOp, heq], helems, DisjointSet.find_inv hInv hmem heq⟩

/-- Any sequence of member operations succeeds and preserves the invariant
and the element list. -/
theorem runOps_spec {s : DisjointSet α} (hInv : s.Inv) {ops : List (DsuOp α)}
    (hmem : ∀ op ∈ ops, op.mems s.elems) :
    ∃ s', runOps s ops = some s' ∧ s'.elems = s.elems ∧ s'.Inv := by
  induction ops generalizing s with
  | nil => exact ⟨s, rfl, rfl, hInv⟩
  | cons op rest ih =>
    obtain ⟨s1, heq1, helems1, hinv1⟩ := runOp_spec hInv (hmem op (by simp))
    obtain ⟨s', heq', helems', hinv'⟩ := ih hinv1
      (fun o ho => helems1 ▸ hmem o (by simp [ho]))
    refine ⟨s', ?_, helems'.trans helems1, hinv'⟩
    rw [runOps, heq1]
    exact heq'

/-- C10: a `DisjointSet` built from a finite element list stays an acyclic
forest under any sequence of `union` and `find` calls on member elements, so
`find x` terminates for every member `x`, returning a root `r` with
`parent r = r` and, by path compression, leaving `parent x = r`. -/
theorem claim10_dsu_forest_find_terminates (elements : List α)
    (ops : List (DsuOp α)) (hops : ∀ op ∈ ops, op.mems elements) :
    ∃ s', runOps (DisjointSet.ofElements elements) ops = some s' ∧
      s'.elems = elements ∧ s'.Inv ∧
      ∀ x ∈ elements, ∃ r s'', s'.find x = some (r, s'') ∧
        RootedAt s'.parent x r ∧ s''.parent r = r ∧ s''.parent x = r := by
  obtain ⟨s', hrun, helems, hinv⟩ := runOps_spec (ofElements_inv elements) hops
  refine ⟨s', hrun, helems, hinv, ?_⟩
  intro x hx
  have hx' : x ∈ s'.elems := by rw [helems]; exact hx
  obtain ⟨r, s'', hfind⟩ := DisjointSet.find_isSome hinv hx'
  obtain ⟨-, -, hroot, hpx, hpr, -, -⟩ := DisjointSet.find_props hfind
  exact ⟨r, s'', hfind, hroot, hpr, hpx⟩

/-- Witness for C10 at a concrete input. -/
theorem claim10_witness :
    ∃ s', runOps (DisjointSet.ofElements ([0, 1, 2] : List Nat))
        [DsuOp.unionOp 0 1, DsuOp.unionOp 1 2, DsuOp.findOp 0] = some s' ∧
      s'.elems = [0, 1, 2] ∧ s'.Inv ∧
      ∀ x ∈ ([0, 1, 2] : List Nat), ∃ r s'', s'.find x = some (r, s'') ∧
        RootedAt s'.parent x r ∧ s''.parent r = r ∧ s''.parent x = r := by
  refine claim10_dsu_forest_find_terminates [0, 1, 2]
    [DsuOp.unionOp 0 1, DsuOp.unionOp 1 2, DsuOp.findOp 0] ?_
  intro op hop
  simp only [List.mem_cons, List.not_mem_nil, or_false] at hop
  rcases hop with rfl | rfl | rfl <;> simp [DsuOp.mems]

/-- C9: on a well-formed state, `union x y` twice gives the same final
partition as once; the second call returns `false`; and the first call
returns `true` exactly when `x` and `y` had no common root beforehand. -/
theorem claim9_union_idempotent (s : DisjointSet α) (hInv : s.Inv) (x y : α)
    (hx : x ∈ s.elems) (hy : y ∈ s.elems) :
    ∃ b s₁ s₂, s.union x y = some (b, s₁) ∧ s₁.union x y = some (false, s₂) ∧
      (∀ z w, RootedAt s₂.parent z w ↔ RootedAt s₁.parent z w) ∧
      (b = true ↔ ¬ ∃ r, RootedAt s.parent x r ∧ RootedAt s.parent y r) := by
  obtain ⟨b, s₁, rx, ry, heq, helems, hinv1, hrx, hry, hbiff, hcases⟩ :=
    DisjointSet.union_spec hInv hx hy
  have hx1 : x ∈ s₁.elems := helems ▸ hx
  have hy1 : y ∈ s₁.elems := helems ▸ hy
  obtain ⟨b2, s₂, rx2, ry2, heq2, -, -, hrx2, hry2, hbiff2, hcases2⟩ :=
    DisjointSet.union_spec hinv1 hx1 hy1
  -- after the first union, x and y share a root, so the second returns false
  have hsame : rx2 = ry2 := by
    rcases hcases with ⟨hb, hiff⟩ | ⟨hb, keep, drp, hkd, hiff⟩
    · -- no merge happened: the roots were already equal
      have hrxry : rx = ry := by
        by_contra hne
        rw [hb] at hbiff
        exact absurd (hbiff.mpr hne) (by simp)
      have h1 : RootedAt s₁.parent x rx := (hiff x rx).mpr hrx
      have h2 : RootedAt s₁.parent y ry := (hiff y ry).mpr hry
      rw [rootedAt_unique hrx2 h1, rootedAt_unique hry2 h2, hrxry]
    · -- a merge happened: both roots are now `keep`
      have hne : rx ≠ ry := hbiff.mp hb
      have hkx : RootedAt s₁.parent x keep := by
        rcases hkd with ⟨hk, hd⟩ | ⟨hk, hd⟩
        · refine (hiff x keep).mpr (Or.inr ⟨hk.symm ▸ hrx, ?_⟩)
          rw [hk, hd]
          exact hne
        · exact (hiff x keep).mpr (Or.inl ⟨hd.symm ▸ hrx, rfl⟩)
      have hky : RootedAt s₁.parent y keep := by
        rcases hkd with ⟨hk, hd⟩ | ⟨hk, hd⟩
        · exact (hiff y keep).mpr (Or.inl ⟨hd.symm ▸ hry, rfl⟩)
        · refine (hiff y keep).mpr (Or.inr ⟨hk.symm ▸ hry, ?_⟩)
          rw [hk, hd]
          exact fun hcontra => hne hcontra.symm
      rw [rootedAt_unique hrx2 hkx, rootedAt_unique hry2 hky]
  have hb2 : b2 = false := by
    cases hb2t : b2 with
    | false => rfl
    | true => exact absurd hsame (hbiff2.mp hb2t)
  rw [hb2] at heq2 hcases2
  refine ⟨b, s₁, s₂, heq, heq2, ?_, ?_⟩
  · rcases hcases2 with ⟨-, hiff2⟩ | ⟨hcontra, -⟩
    · exact hiff2
    · exact absurd hcontra (by simp)
  · rw [hbiff]
    constructor
    · intro hne ⟨r, h1, h2⟩
      exact hne ((rootedAt_unique hrx h1).trans (rootedAt_unique h2 hry))
    · intro hno
      intro hrxry
      exact hno ⟨rx, hrx, hrxry ▸ hry⟩

/-- Witness for C9 at a concrete input. -/
theorem claim9_witness :
    ∃ b s₁ s₂, (DisjointSet.ofElements ([0, 1] : List Nat)).union 0 1 = some (b, s₁) ∧
      s₁.union 0 1 = some (false, s₂) ∧
      (∀ z w, RootedAt s₂.parent z w ↔ RootedAt s₁.parent z w) ∧
      (b = true ↔ ¬ ∃ r, RootedAt (DisjointSet.ofElements ([0, 1] : List Nat)).parent 0 r ∧
        RootedAt (DisjointSet.ofElements ([0, 1] : List Nat)).parent 1 r) :=
  claim9_union_idempotent (DisjointSet.ofElements [0, 1]) (ofElements_inv [0, 1])
    0 1 (by simp [DisjointSet.ofElements]) (by simp [DisjointSet.ofElements])

theorem bucketOf_nil (h : H) : bucketOf ([] : List (H × List P)) h = [] := rfl

theorem bucketOf_cons (kv : H × List P) (m : List (H × List P)) (h : H) :
    bucketOf (kv :: m) h = if kv.1 = h then kv.2 else bucketOf m h := by
  by_cases hk : kv.1 = h
  · rw [bucketOf, List.find?_cons_of_pos _ (by simp [hk]), if_pos hk]
  · rw [bucketOf, List.find?_cons_of_neg _ (by simp [hk]), if_neg hk]
    rfl

/-- Inserting under key `h` appends to bucket `h` and leaves the others. -/
theorem bucketOf_insertHash (m : List (H × List P)) (h h' : H) (p : P) :
    bucketOf (insertHash m h p) h' =
      if h' = h then bucketOf m h' ++ [p] else bucketOf m h' := by
  induction m with
  | nil =>
    rw [insertHash, bucketOf_cons, bucketOf_nil]
    show (if h = h' then [p] else []) = if h' = h then [] ++ [p] else []
    by_cases hh : h' = h
    · rw [if_pos hh.symm, if_pos hh, List.nil_append]
    · rw [if_neg (fun c => hh (Eq.symm c)), if_neg hh]
  | cons kv rest ih =>
    by_cases hkv : kv.1 = h
    · rw [insertHash, if_pos hkv, bucketOf_cons, bucketOf_cons]
      show (if kv.1 = h' then kv.2 ++ [p] else bucketOf rest h') = _
      by_cases hh : kv.1 = h'
      · rw [if_pos hh, if_pos hh, if_pos (hh.symm.trans hkv)]
      · rw [if_neg hh, if_neg hh,
          if_neg (fun c : h' = h => hh (hkv.trans c.symm))]
    · rw [insertHash, if_neg hkv, bucketOf_cons, bucketOf_cons, ih]
      by_cases hfst : kv.1 = h'
      · rw [if_pos hfst, if_pos hfst,
          if_neg (fun c : h' = h => hkv (hfst.trans c))]
      · rw [if_neg hfst, if_neg hfst]

/-- The bucket keyed `h` after the whole loop is the old bucket plus, in
order, every path whose hash is `h`. -/
theorem bucketOf_hashLoop (hash : P → Option H) (paths : List P)
    (acc : List (H × List P)) (h : H) :
    bucketOf (paths.foldl (hashStep hash) acc) h =
      bucketOf acc h ++ paths.filter (fun p => decide (hash p = some h)) := by
  induction paths generalizing acc with
  | nil => simp
  | cons p rest ih =>
    rw [List.foldl_cons, ih]
    cases hp : hash p with
    | none =>
      simp [hashStep, hp]
    | some h0 =>
      rw [List.filter_cons]
      by_cases hh : h0 = h
      · subst hh
        simp [hashStep, hp, bucketOf_insertHash]
      · have hne2 : ¬ (hash p = some h) := by rw [hp]; simp [hh]
        simp [hashStep, hp, bucketOf_insertHash, hh, Ne.symm hh, hne2]

/-- A nonempty bucket is an entry of the map. -/
theorem bucketOf_mem {m : List (H × List P)} {h : H}
    (hne : bucketOf m h ≠ []) : (h, bucketOf m h) ∈ m := by
  cases hfind : m.find? (fun kv => decide (kv.1 = h)) with
  | none =>
    rw [bucketOf, hfind] at hne
    simp at hne
  | some kv =>
    rw [bucketOf, hfind]
    show (h, kv.2) ∈ m
    have hmem := List.mem_of_find?_eq_some hfind
    have hkey := List.find?_some hfind
    simp only [decide_eq_true_eq] at hkey
    obtain ⟨k1, k2⟩ := kv
    simp only at hkey ⊢
    rw [← hkey]
    exact hmem

/-- Every path stored under key `h` after inserting hashes to some key. -/
theorem insertHash_sound {hash : P → Option H} {m : List (H × List P)}
    (hm : ∀ kv ∈ m, ∀ q ∈ kv.2, hash q = some kv.1) {h : H} {p : P}
    (hp : hash p = some h) :
    ∀ kv ∈ insertHash m h p, ∀ q ∈ kv.2, hash q = some kv.1 := by
  induction m with
  | nil =>
    intro kv hkv q hq
    simp only [insertHash, List.mem_singleton] at hkv
    subst hkv
    simp only [List.mem_singleton] at hq
    subst hq
    exact hp
  | cons kv0 rest ih =>
    intro kv hkv q hq
    by_cases hk : kv0.1 = h
    · rw [insertHash, if_pos hk] at hkv
      rcases List.mem_cons.mp hkv with rfl | hmem
      · rcases List.mem_append.mp hq with hq' | hq'
        · exact hm kv0 (by simp) q hq'
        · simp only [List.mem_singleton] at hq'
          subst hq'
          rw [hk]
          exact hp
      · exact hm kv (List.mem_cons_of_mem _ hmem) q hq
    · rw [insertHash, if_neg hk] at hkv
      rcases List.mem_cons.mp hkv with rfl | hmem
      · exact hm kv (by simp) q hq
      · exact ih (fun kv' hkv' => hm kv' (List.mem_cons_of_mem _ hkv')) kv hmem q hq

/-- Every path in every bucket of the hash loop hashes to the bucket's key. -/
theorem hashLoop_sound (hash : P → Option H) (paths : List P)
    (acc : List (H × List P))
    (hacc : ∀ kv ∈ acc, ∀ q ∈ kv.2, hash q = some kv.1) :
    ∀ kv ∈ paths.foldl (hashStep hash) acc, ∀ q ∈ kv.2, hash q = some kv.1 := by
  induction paths generalizing acc with
  | nil => simpa using hacc
  | cons p rest ih =>
    rw [List.foldl_cons]
    refine ih _ ?_
    cases hp : hash p with
    | none => simpa [hashStep, hp] using hacc
    | some h => simpa [hashStep, hp] using insertHash_sound hacc hp

/-- C7: every bucket `compute_hashes` returns has at least two paths, every
path in a bucket hashes to the bucket's key, a path whose decode fails
appears in no bucket, and every decodable path whose hash class has at
least two decodable members does appear in the returned bucket of its hash
(one path's failure never evicts the others). -/
theorem claim7_compute_hashes (hash : P → Option H) (paths : List P)
    (h : H) (ps : List P) (p : P) :
    ((h, ps) ∈ compute_hashes hash paths →
      2 ≤ ps.length ∧ ∀ q ∈ ps, hash q = some h) ∧
    (hash p = none → ∀ kv ∈ compute_hashes hash paths, p ∉ kv.2) ∧
    (p ∈ paths → hash p = some h →
      2 ≤ (paths.filter (fun q => decide (hash q = some h))).length →
      ∃ ps', (h, ps') ∈ compute_hashes hash paths ∧ p ∈ ps') := by
  refine ⟨?_, ?_, ?_⟩
  · intro hmem
    rw [compute_hashes, List.mem_filter] at hmem
    obtain ⟨hmem, hlen⟩ := hmem
    simp only [decide_eq_true_eq] at hlen
    exact ⟨hlen, hashLoop_sound hash paths [] (by simp) (h, ps) hmem⟩
  · intro hnone kv hkv hpmem
    rw [compute_hashes, List.mem_filter] at hkv
    have := hashLoop_sound hash paths [] (by simp) kv hkv.1 p hpmem
    rw [hnone] at this
    exact Option.noConfusion this
  · intro hpaths hsome hlen
    have hbucket : bucketOf (computeHashesAll hash paths) h =
        paths.filter (fun q => decide (hash q = some h)) := by
      rw [computeHashesAll, bucketOf_hashLoop, bucketOf_nil, List.nil_append]
    have hpmem : p ∈ bucketOf (computeHashesAll hash paths) h := by
      rw [hbucket, List.mem_filter]
      exact ⟨hpaths, by simp [hsome]⟩
    have hne : bucketOf (computeHashesAll hash paths) h ≠ [] := by
      intro hcontra
      rw [hcontra] at hpmem
      exact absurd hpmem (List.not_mem_nil p)
    refine ⟨bucketOf (computeHashesAll hash paths) h, ?_, hpmem⟩
    rw [compute_hashes, List.mem_filter]
    refine ⟨bucketOf_mem hne, ?_⟩
    simp only [decide_eq_true_eq]
    rw [hbucket]
    omega

/-- Inserting into the grouping map keeps every bucket a subsequence of the
processed prefix. -/
theorem insertHash_sublist {acc : List (H × List P)} {pre : List P}
    (hacc : ∀ kv ∈ acc, kv.2.Sublist pre) (h : H) (p : P) :
    ∀ kv ∈ insertHash acc h p, kv.2.Sublist (pre ++ [p]) := by
  induction acc with
  | nil =>
    intro kv hkv
    simp only [insertHash, List.mem_singleton] at hkv
    subst hkv
    exact (List.nil_sublist pre).append (List.Sublist.refl [p])
  | cons kv0 rest ih =>
    intro kv hkv
    by_cases hk : kv0.1 = h
    · rw [insertHash, if_pos hk] at hkv
      rcases List.mem_cons.mp hkv with rfl | hmem
      · exact (hacc kv0 (by simp)).append (List.Sublist.refl [p])
      · exact ((hacc kv (List.mem_cons_of_mem _ hmem)).trans
          (List.sublist_append_left pre [p]))
    · rw [insertHash, if_neg hk] at hkv
      rcases List.mem_cons.mp hkv with rfl | hmem
      · exact ((hacc kv (by simp)).trans (List.sublist_append_left pre [p]))
      · exact ih (fun kv' hkv' => hacc kv' (List.mem_cons_of_mem _ hkv')) kv hmem

/-- Every bucket the grouping loop builds is a subsequence of the input
list (each path is appended to exactly one bucket, in traversal order). -/
theorem groupByRoot_sublist (l : List P) :
    ∀ (s : DisjointSet P) (acc : List (P × List P)) (pre : List P),
      (∀ kv ∈ acc, kv.2.Sublist pre) →
      ∀ kv ∈ groupByRoot s l acc, kv.2.Sublist (pre ++ l) := by
  induction l with
  | nil =>
    intro s acc pre hacc kv hkv
    rw [groupByRoot] at hkv
    simpa using hacc kv hkv
  | cons p rest ih =>
    intro s acc pre hacc kv hkv
    rw [groupByRoot] at hkv
    have happ : pre ++ p :: rest = (pre ++ [p]) ++ rest := by simp
    cases hfind : s.find p with
    | some pr =>
      rw [hfind] at hkv
      rw [happ]
      exact ih pr.2 _ (pre ++ [p]) (insertHash_sublist hacc pr.1 p) kv hkv
    | none =>
      rw [hfind] at hkv
      have h1 : kv.2.Sublist (pre ++ rest) := ih s acc pre hacc kv hkv
      have h2 : (pre ++ rest).Sublist (pre ++ p :: rest) :=
        List.Sublist.append (List.Sublist.refl pre) (List.sublist_cons_self p rest)
      exact h1.trans h2

/-- Every group `clusterGroups` emits has more than one member and no
duplicate members. -/
theorem clusterGroups_mem {edges : List (P × P)} {g : List P}
    (hg : g ∈ clusterGroups edges) : 1 < g.length ∧ g.Nodup := by
  rw [clusterGroups, List.mem_filter] at hg
  obtain ⟨hmem, hlen⟩ := hg
  simp only [decide_eq_true_eq] at hlen
  refine ⟨hlen, ?_⟩
  rw [List.mem_map] at hmem
  obtain ⟨kv, hkv, rfl⟩ := hmem
  have hsub := groupByRoot_sublist (uniquePaths edges) _ [] []
    (by intro kv hkv; simp at hkv) kv hkv
  rw [List.nil_append] at hsub
  exact hsub.nodup (List.nodup_dedup _)

theorem decodeLoop_events_polls (env : WorkerEnv P H) (l : List P) (k : Nat) :
    ∀ e ∈ (decodeLoop env l k).1, ∃ b, e = Event.poll b := by
  induction l generalizing k with
  | nil => intro e he; simp [decodeLoop] at he
  | cons p rest ih =>
    intro e he
    rw [decodeLoop] at he
    by_cases hs : env.stop k
    · rw [if_pos hs] at he
      simp only [List.mem_singleton] at he
      exact ⟨true, he⟩
    · rw [if_neg hs] at he
      rcases List.mem_cons.mp he with rfl | hmem
      · exact ⟨false, rfl⟩
      · exact ih (k + 1) e hmem

theorem pairLoopInner_events_polls (env : WorkerEnv P H) (p : P) (l : List P) (k : Nat) :
    ∀ e ∈ (pairLoopInner env p l k).1, ∃ b, e = Event.poll b := by
  induction l generalizing k with
  | nil => intro e he; simp [pairLoopInner] at he
  | cons q rest ih =>
    intro e he
    rw [pairLoopInner] at he
    by_cases hs : env.stop k
    · rw [if_pos hs] at he
      simp only [List.mem_singleton] at he
      exact ⟨true, he⟩
    · rw [if_neg hs] at he
      rcases List.mem_cons.mp he with rfl | hmem
      · exact ⟨false, rfl⟩
      · exact ih (k + 1) e hmem

theorem pairLoopOuter_events_polls (env : WorkerEnv P H) (l : List P) (k : Nat) :
    ∀ e ∈ (pairLoopOuter env l k).1, ∃ b, e = Event.poll b := by
  induction l generalizing k with
  | nil => intro e he; simp [pairLoopOuter] at he
  | cons p rest ih =>
    intro e he
    rw [pairLoopOuter] at he
    rcases List.mem_append.mp he with hmem | hmem
    · exact pairLoopInner_events_polls env p rest k e hmem
    · exact ih _ e hmem

/-- Every `duplicate_group` message the bucket loop emits is a cluster of
some edge list. -/
theorem bucketLoop_put_dup {env : WorkerEnv P H} {g : List P} :
    ∀ {bs : List (List P)} {k : Nat},
      Event.put (Msg.duplicateGroup g) ∈ (bucketLoop env bs k).1 →
      ∃ edges, g ∈ clusterGroups edges := by
  intro bs
  induction bs with
  | nil => intro k hmem; simp [bucketLoop] at hmem
  | cons b rest ih =>
    intro k hmem
    rw [bucketLoop] at hmem
    by_cases hs : env.stop k
    · rw [if_pos hs] at hmem
      simp at hmem
    · rw [if_neg hs] at hmem
      by_cases hs2 : env.stop (decodeLoop env b (k + 1)).2.2
      · rw [if_pos hs2] at hmem
        simp only [List.mem_append, List.mem_cons, List.mem_singleton,
          List.not_mem_nil, or_false] at hmem
        rcases hmem with (heq | hd) | heq
        · exact absurd heq (by simp)
        · obtain ⟨bb, hbb⟩ := decodeLoop_events_polls env b (k + 1) _ hd
          exact absurd hbb (by simp)
        · exact absurd heq (by simp)
      · rw [if_neg hs2] at hmem
        by_cases hlen : (decodeLoop env b (k + 1)).2.1.length < 2
        · rw [if_pos hlen] at hmem
          simp only [List.mem_append, List.mem_cons] at hmem
          rcases hmem with (heq | hd) | (heq | hr)
          · exact absurd heq (by simp)
          · obtain ⟨bb, hbb⟩ := decodeLoop_events_polls env b (k + 1) _ hd
            exact absurd hbb (by simp)
          · exact absurd heq (by simp)
          · exact ih hr
        · rw [if_neg hlen] at hmem
          by_cases henc : env.encodeOk (decodeLoop env b (k + 1)).2.1
          · rw [if_pos henc] at hmem
            by_cases hs3 : env.stop
                (pairLoopOuter env (decodeLoop env b (k + 1)).2.1
                  ((decodeLoop env b (k + 1)).2.2 + 1)).2.2
            · rw [if_pos hs3] at hmem
              simp only [List.mem_append, List.mem_cons, List.mem_singleton,
                List.not_mem_nil, or_false] at hmem
              rcases hmem with ((heq | hd) | (heq | hp)) | heq
              · exact absurd heq (by simp)
              · obtain ⟨bb, hbb⟩ := decodeLoop_events_polls env b (k + 1) _ hd
                exact absurd hbb (by simp)
              · exact absurd heq (by simp)
              · obtain ⟨bb, hbb⟩ := pairLoopOuter_events_polls env _ _ _ hp
                exact absurd hbb (by simp)
              · exact absurd heq (by simp)
            · rw [if_neg hs3] at hmem
              simp only [List.mem_append, List.mem_cons] at hmem
              rcases hmem with ((heq | hd) | (heq | hp)) | (heq | (hput | hr))
              · exact absurd heq (by simp)
              · obtain ⟨bb, hbb⟩ := decodeLoop_events_polls env b (k + 1) _ hd
                exact absurd hbb (by simp)
              · exact absurd heq (by simp)
              · obtain ⟨bb, hbb⟩ := pairLoopOuter_events_polls env _ _ _ hp
                exact absurd hbb (by simp)
              · exact absurd heq (by simp)
              · by_cases hemp : (pairLoopOuter env
                    (decodeLoop env b (k + 1)).2.1
                    ((decodeLoop env b (k + 1)).2.2 + 1)).2.1.isEmpty
                · rw [if_pos hemp] at hput
                  simp at hput
                · rw [if_neg hemp] at hput
                  rw [List.mem_map] at hput
                  obtain ⟨g', hg', heq⟩ := hput
                  have hgg : g' = g := by
                    injection heq with h1
                    injection h1
                  exact ⟨_, hgg ▸ hg'⟩
              · exact ih hr
          · rw [if_neg henc] at hmem
            simp only [List.mem_append, List.mem_cons, List.mem_singleton,
              List.not_mem_nil, or_false] at hmem
            rcases hmem with (heq | hd) | heq
            · exact absurd heq (by simp)
            · obtain ⟨bb, hbb⟩ := decodeLoop_events_polls env b (k + 1) _ hd
              exact absurd hbb (by simp)
            · exact absurd heq (by simp)

/-- Every `duplicate_group` message in the whole run's trace is a cluster of
some edge list. -/
theorem runTrace_put_dup {env : WorkerEnv P H} {g : List P}
    (hmem : Event.put (Msg.duplicateGroup g) ∈ runTrace env) :
    ∃ edges, g ∈ clusterGroups edges := by
  rw [runTrace] at hmem
  by_cases h1 : env.paths.isEmpty
  · rw [if_pos h1] at hmem
    simp at hmem
  · rw [if_neg h1] at hmem
    by_cases h2 : (compute_hashes env.hash env.paths).isEmpty
    · rw [if_pos h2] at hmem
      simp at hmem
    · rw [if_neg h2] at hmem
      rcases List.mem_append.mp hmem with hpre | htail
      · simp at hpre
      · generalize hr : bucketLoop env ((compute_hashes env.hash env.paths).map Prod.snd) 0 = r at htail
        have hr1 : r.1 = (bucketLoop env ((compute_hashes env.hash env.paths).map Prod.snd) 0).1 := by
          rw [hr]
        obtain ⟨ev, kk, out⟩ := r
        simp only at hr1
        cases out with
        | failed =>
          rw [runTail] at htail
          rcases List.mem_append.mp htail with hev | hx
          · exact bucketLoop_put_dup (hr1 ▸ hev)
          · simp at hx
        | normal =>
          rw [runTail] at htail
          by_cases hstop : env.stop kk
          · rw [if_pos hstop] at htail
            rcases List.mem_append.mp htail with hev | hx
            · exact bucketLoop_put_dup (hr1 ▸ hev)
            · simp at hx
          · rw [if_neg hstop] at htail
            rcases List.mem_append.mp htail with hev | hx
            · exact bucketLoop_put_dup (hr1 ▸ hev)
            · simp at hx
        | stopped =>
          rw [runTail] at htail
          by_cases hstop : env.stop kk
          · rw [if_pos hstop] at htail
            rcases List.mem_append.mp htail with hev | hx
            · exact bucketLoop_put_dup (hr1 ▸ hev)
            · simp at hx
          · rw [if_neg hstop] at htail
            rcases List.mem_append.mp htail with hev | hx
            · exact bucketLoop_put_dup (hr1 ▸ hev)
            · simp at hx

/-- A group of length at most one is not registered at all. -/
theorem registerGroup_short (env : AppEnv P) (s : AppState P) (g : List P)
    (hlen : g.length ≤ 1) : registerGroup env s g = (s, []) := by
  rw [registerGroup, if_neg (by omega)]

/-- C4: every `duplicate_group` event the worker emits carries at least two
pairwise-distinct paths, and the consumer's `process_queue` registers a
group only when its path list has length greater than one (shorter lists
change nothing). -/
theorem claim4_groups_at_least_two_distinct (env : WorkerEnv P H) (g : List P)
    (hmem : Event.put (Msg.duplicateGroup g) ∈ runTrace env) :
    (2 ≤ g.length ∧ g.Nodup) ∧
      ∀ (aenv : AppEnv P) (s : AppState P) (g' : List P), g'.length ≤ 1 →
        registerGroup aenv s g' = (s, []) := by
  obtain ⟨edges, hg⟩ := runTrace_put_dup hmem
  obtain ⟨hlen, hnodup⟩ := clusterGroups_mem hg
  exact ⟨⟨hlen, hnodup⟩, fun aenv s g' h => registerGroup_short aenv s g' h⟩

/-- Witness for C4 at a concrete run that emits the group `[0, 1]`. -/
theorem claim4_witness :
    (Event.put (Msg.duplicateGroup [0, 1]) ∈ runTrace c4wEnv) ∧
      (2 ≤ ([0, 1] : List Nat).length ∧ ([0, 1] : List Nat).Nodup) ∧
      ∀ (aenv : AppEnv Nat) (s : AppState Nat) (g' : List Nat), g'.length ≤ 1 →
        registerGroup aenv s g' = (s, []) :=
  ⟨by decide, claim4_groups_at_least_two_distinct c4wEnv [0, 1] (by decide)⟩


theorem decodeLoop_noStop_valid (env : WorkerEnv P H)
    (hstop : ∀ j, env.stop j = false) (l : List P) (k : Nat) :
    (decodeLoop env l k).2.1 = l.filter (fun p => env.decode p) := by
  induction l generalizing k with
  | nil => simp [decodeLoop]
  | cons p rest ih =>
    rw [decodeLoop, if_neg (by simp [hstop])]
    simp only [List.filter_cons]
    by_cases hd : env.decode p
    · simp [hd, ih (k + 1)]
    · simp [hd, ih (k + 1)]

theorem pairLoopInner_noStop_edges (env : WorkerEnv P H)
    (hstop : ∀ j, env.stop j = false) (p : P) (l : List P) (k : Nat) :
    (pairLoopInner env p l k).2.1 =
      (l.filter (fun q => decide (simThreshold ≤ env.sim p q))).map (fun q => (p, q)) := by
  induction l generalizing k with
  | nil => simp [pairLoopInner]
  | cons q rest ih =>
    rw [pairLoopInner, if_neg (by simp [hstop])]
    simp only [List.filter_cons]
    by_cases hq : simThreshold ≤ env.sim p q
    · simp [hq, ih (k + 1)]
    · simp [hq, ih (k + 1)]

theorem pairLoopOuter_noStop_mem (env : WorkerEnv P H)
    (hstop : ∀ j, env.stop j = false) (l : List P) (k : Nat) (a b : P) :
    (a, b) ∈ (pairLoopOuter env l k).2.1 ↔
      ([a, b].Sublist l ∧ simThreshold ≤ env.sim a b) := by
  induction l generalizing k with
  | nil => simp [pairLoopOuter]
  | cons p rest ih =>
    rw [pairLoopOuter]
    simp only [List.mem_append]
    constructor
    · rintro (hin | hout)
      · rw [pairLoopInner_noStop_edges env hstop] at hin
        rw [List.mem_map] at hin
        obtain ⟨q, hq, heq⟩ := hin
        rw [List.mem_filter] at hq
        obtain ⟨hqrest, hthr⟩ := hq
        simp only [decide_eq_true_eq] at hthr
        rw [Prod.mk.injEq] at heq
        obtain ⟨rfl, rfl⟩ := heq
        exact ⟨(List.singleton_sublist.mpr hqrest).cons₂ p, hthr⟩
      · obtain ⟨hsub, hthr⟩ := (ih _).mp hout
        exact ⟨hsub.cons p, hthr⟩
    · rintro ⟨hsub, hthr⟩
      cases hsub with
      | cons _ h => exact Or.inr ((ih _).mpr ⟨h, hthr⟩)
      | cons₂ _ h =>
        left
        rw [pairLoopInner_noStop_edges env hstop, List.mem_map]
        exact ⟨b, List.mem_filter.mpr ⟨List.singleton_sublist.mp h, by simp [hthr]⟩, rfl⟩

theorem pairLoopOuter_short (env : WorkerEnv P H) (l : List P) (k : Nat)
    (hlen : l.length < 2) : (pairLoopOuter env l k).2.1 = [] := by
  match l, hlen with
  | [], _ => simp [pairLoopOuter]
  | [p], _ => simp [pairLoopOuter, pairLoopInner]

/-- A bucket in which fewer than two images decode emits nothing: the
`continue` at line 90 skips the whole refinement. -/
theorem bucketLoop_single_short (env : WorkerEnv P H)
    (hstop : ∀ j, env.stop j = false) (b : List P)
    (hlen : (b.filter (fun p => env.decode p)).length < 2) (k : Nat) :
    noDup (bucketLoop env [b] k).1 := by
  intro g hmem
  rw [bucketLoop, if_neg (by simp [hstop])] at hmem
  rw [if_neg (by simp [hstop])] at hmem
  rw [if_pos (by rw [decodeLoop_noStop_valid env hstop]; exact hlen)] at hmem
  simp only [List.mem_append, List.mem_cons] at hmem
  rcases hmem with (heq | hd) | hx
  · exact absurd heq (by simp)
  · obtain ⟨bb, hbb⟩ := decodeLoop_events_polls env b (k + 1) _ hd
    exact absurd hbb (by simp)
  · simp [bucketLoop] at hx

/-- C5: with no cancellation, the refinement step of one coarse bucket first
shrinks the bucket to the successfully-decoded paths, then yields an edge
for exactly the position-ordered pairs of decoded paths whose similarity
meets the 0.98 threshold; and a bucket with fewer than two decoded paths
contributes no edges and no `duplicate_group` messages. -/
theorem claim5_bucket_refinement (env : WorkerEnv P H)
    (hstop : ∀ j, env.stop j = false) (bucket : List P) (k : Nat) :
    ((decodeLoop env bucket k).2.1 = bucket.filter (fun p => env.decode p)) ∧
    (∀ a b, (a, b) ∈ (pairLoopOuter env (bucket.filter (fun p => env.decode p)) k).2.1 ↔
      ([a, b].Sublist (bucket.filter (fun p => env.decode p)) ∧
        simThreshold ≤ env.sim a b)) ∧
    ((bucket.filter (fun p => env.decode p)).length < 2 →
      (pairLoopOuter env (bucket.filter (fun p => env.decode p)) k).2.1 = [] ∧
      noDup (bucketLoop env [bucket] k).1) := by
  refine ⟨decodeLoop_noStop_valid env hstop bucket k, ?_, ?_⟩
  · intro a b
    exact pairLoopOuter_noStop_mem env hstop _ k a b
  · intro hlen
    exact ⟨pairLoopOuter_short env _ k hlen, bucketLoop_single_short env hstop bucket hlen k⟩

/-- Witness for C5 at a concrete bucket. -/
theorem claim5_witness :
    ((decodeLoop c5wEnv [0, 1] 0).2.1 = [0, 1].filter (fun p => c5wEnv.decode p)) ∧
    (∀ a b, (a, b) ∈ (pairLoopOuter c5wEnv ([0, 1].filter (fun p => c5wEnv.decode p)) 0).2.1 ↔
      ([a, b].Sublist ([0, 1].filter (fun p => c5wEnv.decode p)) ∧
        simThreshold ≤ c5wEnv.sim a b)) ∧
    (([0, 1].filter (fun p => c5wEnv.decode p)).length < 2 →
      (pairLoopOuter c5wEnv ([0, 1].filter (fun p => c5wEnv.decode p)) 0).2.1 = [] ∧
      noDup (bucketLoop c5wEnv [[0, 1]] 0).1) :=
  claim5_bucket_refinement c5wEnv (fun _ => rfl) [0, 1] 0


theorem noDup_nil : noDup ([] : List (Event P)) :=
  fun g h => absurd h (List.not_mem_nil _)

theorem noDup_of_cons {e : Event P} {l : List (Event P)} (h : noDup (e :: l)) :
    noDup l :=
  fun g hg => h g (List.mem_cons_of_mem _ hg)

theorem noDup_append {a b : List (Event P)} (ha : noDup a) (hb : noDup b) :
    noDup (a ++ b) := by
  intro g hg
  rcases List.mem_append.mp hg with h | h
  · exact ha g h
  · exact hb g h

theorem noDup_of_polls {l : List (Event P)}
    (h : ∀ e ∈ l, ∃ b, e = Event.poll b) : noDup l := by
  intro g hg
  obtain ⟨b, hb⟩ := h _ hg
  exact absurd hb (by simp)

theorem Safe_of_noDup {l : List (Event P)} (h : noDup l) : Safe l := by
  induction l with
  | nil => trivial
  | cons e rest ih => exact ⟨fun _ => noDup_of_cons h, ih (noDup_of_cons h)⟩

theorem Safe_of_not_poll {l : List (Event P)} (h : Event.poll true ∉ l) :
    Safe l := by
  induction l with
  | nil => trivial
  | cons e rest ih =>
    refine ⟨fun heq => ?_, ih (fun hm => h (List.mem_cons_of_mem _ hm))⟩
    exact absurd (heq ▸ List.mem_cons_self e rest) h

theorem Safe_append {a b : List (Event P)} (ha : Safe a) (hb : Safe b)
    (hcross : Event.poll true ∈ a → noDup b) : Safe (a ++ b) := by
  induction a with
  | nil => exact hb
  | cons e a' ih =>
    refine ⟨fun heq => ?_, ih ha.2 (fun hm => hcross (List.mem_cons_of_mem _ hm))⟩
    exact noDup_append (ha.1 heq) (hcross (heq ▸ List.mem_cons_self e a'))

theorem Safe_split {l l₁ l₂ : List (Event P)} (hs : Safe l)
    (heq : l = l₁ ++ Event.poll true :: l₂) : noDup l₂ := by
  induction l₁ generalizing l with
  | nil =>
    subst heq
    exact hs.1 rfl
  | cons e l₁ ih =>
    subst heq
    exact ih hs.2 rfl

theorem stopMono_le {stop : Nat → Bool} (h : StopMono stop) {j j' : Nat}
    (hle : j ≤ j') (hj : stop j = true) : stop j' = true := by
  induction hle with
  | refl => exact hj
  | step _ ih => exact h _ ih

theorem decodeLoop_k_le (env : WorkerEnv P H) (l : List P) (k : Nat) :
    k ≤ (decodeLoop env l k).2.2 := by
  induction l generalizing k with
  | nil => exact Nat.le_refl k
  | cons p rest ih =>
    rw [decodeLoop]
    by_cases hs : env.stop k
    · rw [if_pos hs]
      exact Nat.le_succ k
    · rw [if_neg hs]
      exact Nat.le_trans (Nat.le_succ k) (ih (k + 1))

theorem decodeLoop_true_stop {env : WorkerEnv P H} (hmono : StopMono env.stop)
    {l : List P} {k : Nat} (hmem : Event.poll true ∈ (decodeLoop env l k).1) :
    env.stop (decodeLoop env l k).2.2 = true := by
  induction l generalizing k with
  | nil => simp [decodeLoop] at hmem
  | cons p rest ih =>
    rw [decodeLoop] at hmem ⊢
    by_cases hs : env.stop k
    · rw [if_pos hs]
      exact hmono k hs
    · rw [if_neg hs] at hmem ⊢
      rcases List.mem_cons.mp hmem with heq | hm
      · exact absurd heq.symm (by simp)
      · exact ih hm

theorem pairLoopInner_k_le (env : WorkerEnv P H) (p : P) (l : List P) (k : Nat) :
    k ≤ (pairLoopInner env p l k).2.2 := by
  induction l generalizing k with
  | nil => exact Nat.le_refl k
  | cons q rest ih =>
    rw [pairLoopInner]
    by_cases hs : env.stop k
    · rw [if_pos hs]
      exact Nat.le_succ k
    · rw [if_neg hs]
      exact Nat.le_trans (Nat.le_succ k) (ih (k + 1))

theorem pairLoopInner_true_stop {env : WorkerEnv P H} (hmono : StopMono env.stop)
    {p : P} {l : List P} {k : Nat}
    (hmem : Event.poll true ∈ (pairLoopInner env p l k).1) :
    env.stop (pairLoopInner env p l k).2.2 = true := by
  induction l generalizing k with
  | nil => simp [pairLoopInner] at hmem
  | cons q rest ih =>
    rw [pairLoopInner] at hmem ⊢
    by_cases hs : env.stop k
    · rw [if_pos hs]
      exact hmono k hs
    · rw [if_neg hs] at hmem ⊢
      rcases List.mem_cons.mp hmem with heq | hm
      · exact absurd heq.symm (by simp)
      · exact ih hm

theorem pairLoopOuter_k_le (env : WorkerEnv P H) (l : List P) (k : Nat) :
    k ≤ (pairLoopOuter env l k).2.2 := by
  induction l generalizing k with
  | nil => exact Nat.le_refl k
  | cons p rest ih =>
    rw [pairLoopOuter]
    exact Nat.le_trans (pairLoopInner_k_le env p rest k) (ih _)

theorem pairLoopOuter_true_stop {env : WorkerEnv P H} (hmono : StopMono env.stop)
    {l : List P} {k : Nat}
    (hmem : Event.poll true ∈ (pairLoopOuter env l k).1) :
    env.stop (pairLoopOuter env l k).2.2 = true := by
  induction l generalizing k with
  | nil => simp [pairLoopOuter] at hmem
  | cons p rest ih =>
    rw [pairLoopOuter] at hmem ⊢
    rcases List.mem_append.mp hmem with hm | hm
    · exact stopMono_le hmono (pairLoopOuter_k_le env rest _)
        (pairLoopInner_true_stop hmono hm)
    · exact ih hm

theorem puts_shape (edges : List (P × P)) :
    ∀ e ∈ (if edges.isEmpty then []
      else (clusterGroups edges).map (fun g => Event.put (Msg.duplicateGroup g))),
      ∃ g, e = Event.put (Msg.duplicateGroup g) := by
  intro e he
  by_cases hemp : edges.isEmpty
  · rw [if_pos hemp] at he
    simp at he
  · rw [if_neg hemp] at he
    rw [List.mem_map] at he
    obtain ⟨g, -, rfl⟩ := he
    exact ⟨g, rfl⟩

/-- Once a poll reads true, a sticky stop event forbids every later
`duplicate_group` message inside the bucket loop. -/
theorem bucketLoop_safe {env : WorkerEnv P H} (hmono : StopMono env.stop)
    (bs : List (List P)) (k : Nat) : Safe (bucketLoop env bs k).1 := by
  induction bs generalizing k with
  | nil => trivial
  | cons b rest ih =>
    rw [bucketLoop]
    by_cases hs : env.stop k
    · rw [if_pos hs]
      exact Safe_of_noDup (noDup_of_polls (by intro e he; simp at he; exact ⟨true, he⟩))
    · rw [if_neg hs]
      by_cases hs2 : env.stop (decodeLoop env b (k + 1)).2.2
      · rw [if_pos hs2]
        refine Safe_of_noDup (noDup_of_polls ?_)
        intro e he
        simp only [List.mem_append, List.mem_cons, List.mem_singleton,
          List.not_mem_nil, or_false] at he
        rcases he with (rfl | hd) | rfl
        · exact ⟨false, rfl⟩
        · exact decodeLoop_events_polls env b (k + 1) e hd
        · exact ⟨true, rfl⟩
      · rw [if_neg hs2]
        by_cases hlen : (decodeLoop env b (k + 1)).2.1.length < 2
        · rw [if_pos hlen]
          refine Safe_append (Safe_of_noDup (noDup_of_polls ?_)) ?_ ?_
          · intro e he
            rcases List.mem_cons.mp he with rfl | hd
            · exact ⟨false, rfl⟩
            · exact decodeLoop_events_polls env b (k + 1) e hd
          · exact ⟨fun heq => absurd heq (by simp), ih _⟩
          · intro hmem
            rcases List.mem_cons.mp hmem with heq | hd
            · exact absurd heq.symm (by simp)
            · exact absurd (decodeLoop_true_stop hmono hd) hs2
        · rw [if_neg hlen]
          by_cases henc : env.encodeOk (decodeLoop env b (k + 1)).2.1
          · rw [if_pos henc]
            by_cases hs3 : env.stop
                (pairLoopOuter env (decodeLoop env b (k + 1)).2.1
                  ((decodeLoop env b (k + 1)).2.2 + 1)).2.2
            · rw [if_pos hs3]
              refine Safe_of_noDup (noDup_of_polls ?_)
              intro e he
              simp only [List.mem_append, List.mem_cons, List.mem_singleton,
                List.not_mem_nil, or_false] at he
              rcases he with ((rfl | hd) | (rfl | hp)) | rfl
              · exact ⟨false, rfl⟩
              · exact decodeLoop_events_polls env b (k + 1) e hd
              · exact ⟨false, rfl⟩
              · exact pairLoopOuter_events_polls env _ _ e hp
              · exact ⟨true, rfl⟩
            · rw [if_neg hs3]
              refine Safe_append (Safe_of_noDup (noDup_of_polls ?_)) ?_ ?_
              · intro e he
                simp only [List.mem_append, List.mem_cons] at he
                rcases he with (rfl | hd) | (rfl | hp)
                · exact ⟨false, rfl⟩
                · exact decodeLoop_events_polls env b (k + 1) e hd
                · exact ⟨false, rfl⟩
                · exact pairLoopOuter_events_polls env _ _ e hp
              · refine ⟨fun heq => absurd heq (by simp), ?_⟩
                refine Safe_append (Safe_of_not_poll ?_) (ih _) ?_
                · intro hmem
                  obtain ⟨g, hg⟩ := puts_shape _ _ hmem
                  exact absurd hg (by simp)
                · intro hmem
                  obtain ⟨g, hg⟩ := puts_shape _ _ hmem
                  exact absurd hg (by simp)
              · intro hmem
                simp only [List.mem_append, List.mem_cons] at hmem
                rcases hmem with (heq | hd) | (heq | hp)
                · exact absurd heq.symm (by simp)
                · exact absurd (decodeLoop_true_stop hmono hd) hs2
                · exact absurd heq.symm (by simp)
                · exact absurd (pairLoopOuter_true_stop hmono hp) hs3
          · rw [if_neg henc]
            refine Safe_of_noDup (noDup_of_polls ?_)
            intro e he
            simp only [List.mem_append, List.mem_cons, List.mem_singleton,
              List.not_mem_nil, or_false] at he
            rcases he with (rfl | hd) | rfl
            · exact ⟨false, rfl⟩
            · exact decodeLoop_events_polls env b (k + 1) e hd
            · exact ⟨false, rfl⟩

/-- The whole run is safe: after any true poll, no further group message. -/
theorem runTrace_safe {env : WorkerEnv P H} (hmono : StopMono env.stop) :
    Safe (runTrace env) := by
  rw [runTrace]
  by_cases h1 : env.paths.isEmpty
  · rw [if_pos h1]
    exact Safe_of_not_poll (by intro h; simp at h)
  · rw [if_neg h1]
    by_cases h2 : (compute_hashes env.hash env.paths).isEmpty
    · rw [if_pos h2]
      exact Safe_of_not_poll (by intro h; simp at h)
    · rw [if_neg h2]
      refine Safe_append (Safe_of_not_poll (by intro h; simp at h)) ?_
        (fun h => by simp at h)
      rw [runTail]
      have hnd : ∀ t : List (Event P), (∀ g : List P,
          Event.put (Msg.duplicateGroup g) ∉ t) → noDup t := fun t h => h
      cases (bucketLoop env ((compute_hashes env.hash env.paths).map Prod.snd) 0).2.2 with
      | failed =>
        exact Safe_append (bucketLoop_safe hmono _ _)
          (Safe_of_noDup (by intro g h; simp at h))
          (fun _ => by intro g h; simp at h)
      | normal =>
        by_cases hstop : env.stop
            (bucketLoop env ((compute_hashes env.hash env.paths).map Prod.snd) 0).2.1
        · rw [if_pos hstop]
          exact Safe_append (bucketLoop_safe hmono _ _)
            (Safe_of_noDup (by intro g h; simp at h))
            (fun _ => by intro g h; simp at h)
        · rw [if_neg hstop]
          exact Safe_append (bucketLoop_safe hmono _ _)
            (Safe_of_noDup (by intro g h; simp at h))
            (fun _ => by intro g h; simp at h)
      | stopped =>
        by_cases hstop : env.stop
            (bucketLoop env ((compute_hashes env.hash env.paths).map Prod.snd) 0).2.1
        · rw [if_pos hstop]
          exact Safe_append (bucketLoop_safe hmono _ _)
            (Safe_of_noDup (by intro g h; simp at h))
            (fun _ => by intro g h; simp at h)
        · rw [if_neg hstop]
          exact Safe_append (bucketLoop_safe hmono _ _)
            (Safe_of_noDup (by intro g h; simp at h))
            (fun _ => by intro g h; simp at h)

/-- C3: with the stop event sticky (it is only ever set, never cleared),
once any poll observes it set, no `duplicate_group` message is put on the
queue afterwards: the worker stops issuing new work. -/
theorem claim3_cancellation_no_groups_after_stop (env : WorkerEnv P H)
    (hmono : StopMono env.stop) (l₁ l₂ : List (Event P))
    (hsplit : runTrace env = l₁ ++ Event.poll true :: l₂) :
    noDup l₂ :=
  Safe_split (runTrace_safe hmono) hsplit

/-- Witness for C3 at a concrete cancelled run. -/
theorem claim3_witness :
    StopMono c3wEnv.stop ∧
      noDup ([Event.poll true, Event.put Msg.status, Event.put Msg.done,
        Event.put Msg.done] : List (Event Nat)) :=
  ⟨fun _ _ => rfl,
    claim3_cancellation_no_groups_after_stop c3wEnv (fun _ _ => rfl)
      [Event.put Msg.status, Event.put Msg.status, Event.put Msg.status,
        Event.put Msg.status, Event.put Msg.status]
      [Event.poll true, Event.put Msg.status, Event.put Msg.done, Event.put Msg.done]
      (by decide)⟩


theorem doneCount_append (a b : List (Event P)) :
    doneCount (a ++ b) = doneCount a + doneCount b := by
  simp [doneCount, List.filter_append]

/-- The bucket loop itself never puts a `done` message. -/
theorem bucketLoop_no_done {env : WorkerEnv P H} :
    ∀ {bs : List (List P)} {k : Nat},
      Event.put Msg.done ∉ (bucketLoop env bs k).1 := by
  intro bs
  induction bs with
  | nil => intro k hmem; simp [bucketLoop] at hmem
  | cons b rest ih =>
    intro k hmem
    rw [bucketLoop] at hmem
    by_cases hs : env.stop k
    · rw [if_pos hs] at hmem
      simp at hmem
    · rw [if_neg hs] at hmem
      by_cases hs2 : env.stop (decodeLoop env b (k + 1)).2.2
      · rw [if_pos hs2] at hmem
        simp only [List.mem_append, List.mem_cons, List.mem_singleton,
          List.not_mem_nil, or_false] at hmem
        rcases hmem with (heq | hd) | heq
        · exact absurd heq (by simp)
        · obtain ⟨bb, hbb⟩ := decodeLoop_events_polls env b (k + 1) _ hd
          exact absurd hbb (by simp)
        · exact absurd heq (by simp)
      · rw [if_neg hs2] at hmem
        by_cases hlen : (decodeLoop env b (k + 1)).2.1.length < 2
        · rw [if_pos hlen] at hmem
          simp only [List.mem_append, List.mem_cons] at hmem
          rcases hmem with (heq | hd) | (heq | hr)
          · exact absurd heq (by simp)
          · obtain ⟨bb, hbb⟩ := decodeLoop_events_polls env b (k + 1) _ hd
            exact absurd hbb (by simp)
          · exact absurd heq (by simp)
          · exact ih hr
        · rw [if_neg hlen] at hmem
          by_cases henc : env.encodeOk (decodeLoop env b (k + 1)).2.1
          · rw [if_pos henc] at hmem
            by_cases hs3 : env.stop
                (pairLoopOuter env (decodeLoop env b (k + 1)).2.1
                  ((decodeLoop env b (k + 1)).2.2 + 1)).2.2
            · rw [if_pos hs3] at hmem
              simp only [List.mem_append, List.mem_cons, List.mem_singleton,
                List.not_mem_nil, or_false] at hmem
              rcases hmem with ((heq | hd) | (heq | hp)) | heq
              · exact absurd heq (by simp)
              · obtain ⟨bb, hbb⟩ := decodeLoop_events_polls env b (k + 1) _ hd
                exact absurd hbb (by simp)
              · exact absurd heq (by simp)
              · obtain ⟨bb, hbb⟩ := pairLoopOuter_events_polls env _ _ _ hp
                exact absurd hbb (by simp)
              · exact absurd heq (by simp)
            · rw [if_neg hs3] at hmem
              simp only [List.mem_append, List.mem_cons] at hmem
              rcases hmem with ((heq | hd) | (heq | hp)) | (heq | (hput | hr))
              · exact absurd heq (by simp)
              · obtain ⟨bb, hbb⟩ := decodeLoop_events_polls env b (k + 1) _ hd
                exact absurd hbb (by simp)
              · exact absurd heq (by simp)
              · obtain ⟨bb, hbb⟩ := pairLoopOuter_events_polls env _ _ _ hp
                exact absurd hbb (by simp)
              · exact absurd heq (by simp)
              · obtain ⟨g, hg⟩ := puts_shape _ _ hput
                exact absurd hg (by simp)
              · exact ih hr
          · rw [if_neg henc] at hmem
            simp only [List.mem_append, List.mem_cons, List.mem_singleton,
              List.not_mem_nil, or_false] at hmem
            rcases hmem with (heq | hd) | heq
            · exact absurd heq (by simp)
            · obtain ⟨bb, hbb⟩ := decodeLoop_events_polls env b (k + 1) _ hd
              exact absurd hbb (by simp)
            · exact absurd heq (by simp)

theorem bucketLoop_doneCount (env : WorkerEnv P H) (bs : List (List P)) (k : Nat) :
    doneCount (bucketLoop env bs k).1 = 0 := by
  have hnil : (bucketLoop env bs k).1.filter
      (fun e => decide (e = Event.put Msg.done)) = [] := by
    refine List.filter_eq_nil_iff.mpr ?_
    intro e he
    simp only [decide_eq_true_eq]
    intro heq
    exact bucketLoop_no_done (heq ▸ he)
  rw [doneCount, hnil]
  rfl

/-- C1 (amended): every run puts at least one and at most two `done`
messages; it puts exactly two precisely on the early-return paths (no image
files, no non-singleton bucket, or the stop event observed at line 135),
where the explicit `put(("done", None)); return` is followed by the
`finally` block's own put, and exactly one otherwise (normal completion and
the exception path). -/
theorem claim1_done_count (env : WorkerEnv P H) :
    (1 ≤ doneCount (runTrace env) ∧ doneCount (runTrace env) ≤ 2) ∧
    (doneCount (runTrace env) = 2 ↔ earlyExit env) ∧
    (doneCount (runTrace env) = 1 ↔ ¬ earlyExit env) := by
  rw [runTrace]
  by_cases h1 : env.paths.isEmpty
  · rw [if_pos h1]
    have hearly : earlyExit env := Or.inl (List.isEmpty_iff.mp h1)
    have hc : doneCount ([Event.put Msg.status, Event.put Msg.status,
        Event.put Msg.done, Event.put Msg.done] : List (Event P)) = 2 := rfl
    rw [hc]
    exact ⟨⟨by omega, by omega⟩, iff_of_true rfl hearly,
      iff_of_false (by omega) (not_not_intro hearly)⟩
  · rw [if_neg h1]
    by_cases h2 : (compute_hashes env.hash env.paths).isEmpty
    · rw [if_pos h2]
      have hearly : earlyExit env := Or.inr (Or.inl (List.isEmpty_iff.mp h2))
      have hc : doneCount ([Event.put Msg.status, Event.put Msg.status,
          Event.put Msg.status, Event.put Msg.status, Event.put Msg.status,
          Event.put Msg.done, Event.put Msg.done] : List (Event P)) = 2 := rfl
      rw [hc]
      exact ⟨⟨by omega, by omega⟩, iff_of_true rfl hearly,
        iff_of_false (by omega) (not_not_intro hearly)⟩
    · rw [if_neg h2]
      have hA : ¬ env.paths = [] := by
        intro hcon
        exact h1 (List.isEmpty_iff.mpr hcon)
      have hB : ¬ compute_hashes env.hash env.paths = [] := by
        intro hcon
        exact h2 (List.isEmpty_iff.mpr hcon)
      have hiff : earlyExit env ↔
          ((bucketLoop env ((compute_hashes env.hash env.paths).map Prod.snd) 0).2.2 ≠
            BOut.failed ∧
           env.stop (bucketLoop env ((compute_hashes env.hash env.paths).map Prod.snd) 0).2.1
            = true) := by
        constructor
        · rintro (hc | hc | hc)
          · exact absurd hc hA
          · exact absurd hc hB
          · exact hc
        · intro hc
          exact Or.inr (Or.inr hc)
      rw [doneCount_append]
      have hpre : doneCount ([Event.put Msg.status, Event.put Msg.status,
          Event.put Msg.status, Event.put Msg.status, Event.put Msg.status]
          : List (Event P)) = 0 := rfl
      rw [hpre, runTail]
      cases hout : (bucketLoop env ((compute_hashes env.hash env.paths).map Prod.snd) 0).2.2 with
      | failed =>
        rw [doneCount_append, bucketLoop_doneCount]
        have hc : doneCount ([Event.put Msg.status, Event.put Msg.done]
            : List (Event P)) = 1 := rfl
        rw [hc, hiff, hout]
        exact ⟨⟨by omega, by omega⟩,
          iff_of_false (by omega) (by simp),
          iff_of_true rfl (by simp)⟩
      | normal =>
        by_cases hstop : env.stop
            (bucketLoop env ((compute_hashes env.hash env.paths).map Prod.snd) 0).2.1
        · rw [if_pos hstop, doneCount_append, bucketLoop_doneCount]
          have hc : doneCount ([Event.poll true, Event.put Msg.status,
              Event.put Msg.done, Event.put Msg.done] : List (Event P)) = 2 := rfl
          rw [hc, hiff, hout]
          exact ⟨⟨by omega, by omega⟩,
            iff_of_true rfl ⟨by simp, hstop⟩,
            iff_of_false (by omega) (not_not_intro ⟨by simp, hstop⟩)⟩
        · rw [if_neg hstop, doneCount_append, bucketLoop_doneCount]
          have hc : doneCount ([Event.poll false, Event.put Msg.status,
              Event.put Msg.done] : List (Event P)) = 1 := rfl
          rw [hc, hiff, hout]
          exact ⟨⟨by omega, by omega⟩,
            iff_of_false (by omega) (fun hcon => hstop hcon.2),
            iff_of_true rfl (fun hcon => hstop hcon.2)⟩
      | stopped =>
        by_cases hstop : env.stop
            (bucketLoop env ((compute_hashes env.hash env.paths).map Prod.snd) 0).2.1
        · rw [if_pos hstop, doneCount_append, bucketLoop_doneCount]
          have hc : doneCount ([Event.poll true, Event.put Msg.status,
              Event.put Msg.done, Event.put Msg.done] : List (Event P)) = 2 := rfl
          rw [hc, hiff, hout]
          exact ⟨⟨by omega, by omega⟩,
            iff_of_true rfl ⟨by simp, hstop⟩,
            iff_of_false (by omega) (not_not_intro ⟨by simp, hstop⟩)⟩
        · rw [if_neg hstop, doneCount_append, bucketLoop_doneCount]
          have hc : doneCount ([Event.poll false, Event.put Msg.status,
              Event.put Msg.done] : List (Event P)) = 1 := rfl
          rw [hc, hiff, hout]
          exact ⟨⟨by omega, by omega⟩,
            iff_of_false (by omega) (fun hcon => hstop hcon.2),
            iff_of_true rfl (fun hcon => hstop hcon.2)⟩

/-- Counterexample to C1 as stated: a run over a directory with no image
files puts two `("done", None)` messages (line 53 and the `finally` block
at line 147), not exactly one. -/
theorem claim1_counterexample : doneCount (runTrace c1cexEnv) = 2 := by decide


/-- C2 evidence: after registering two groups and resolving the first, the
next registered group reuses identifier 1, which the still-active second
group already carries (`duplicate_id = len(self.all_duplicates)` shrinks
with removals, contradicting the "simple unique ID" the code claims). -/
theorem registerGroup_id_reuse :
    (⟨1, [2, 3], GStatus.pending⟩ : GroupEntry Nat) ∈ c2s4.all_duplicates ∧
    (⟨1, [4, 5], GStatus.pending⟩ : GroupEntry Nat) ∈ c2s4.all_duplicates ∧
    c2s4.all_duplicates.map GroupEntry.id = [1, 1] := by decide

theorem find?_paths_self {l : List (GroupEntry P)}
    (hnodup : (l.map GroupEntry.paths).Nodup) {e : GroupEntry P} (hmem : e ∈ l) :
    l.find? (fun e' => decide (e'.paths = e.paths)) = some e := by
  induction l with
  | nil => simp at hmem
  | cons e0 rest ih =>
    rw [List.map_cons, List.nodup_cons] at hnodup
    by_cases h0 : e0.paths = e.paths
    · have heq : e = e0 := by
        rcases List.mem_cons.mp hmem with rfl | hr
        · rfl
        · exact absurd (h0 ▸ List.mem_map_of_mem GroupEntry.paths hr) hnodup.1
      rw [heq]
      exact List.find?_cons_of_pos _ (by simp [heq ▸ h0])
    · have hr : e ∈ rest := by
        rcases List.mem_cons.mp hmem with rfl | hr
        · exact absurd rfl h0
        · exact hr
      rw [List.find?_cons_of_neg _ (by simp [h0])]
      exact ih hnodup.2 hr

theorem markFirst_filter_id {l : List (GroupEntry P)} {g : List P}
    {st : GStatus} {gid : Nat} (hmark : ∀ d ∈ l, d.paths = g → d.id = gid) :
    (markFirstByPaths l g st).filter (fun d => decide (d.id ≠ gid)) =
      l.filter (fun d => decide (d.id ≠ gid)) := by
  induction l with
  | nil => rfl
  | cons d rest ih =>
    have ih' := ih (fun d' hd' => hmark d' (List.mem_cons_of_mem _ hd'))
    by_cases hd : d.paths = g
    · rw [markFirstByPaths, if_pos hd, List.filter_cons, List.filter_cons]
      have hid : d.id = gid := hmark d (by simp) hd
      rw [if_neg (by simp [hid]), if_neg (by simp [hid])]
    · rw [markFirstByPaths, if_neg hd, List.filter_cons, List.filter_cons]
      by_cases hdid : d.id = gid
      · rw [if_neg (by simp [hdid]), if_neg (by simp [hdid])]
        exact ih'
      · rw [if_pos (by simp [hdid]), if_pos (by simp [hdid]), ih']

theorem find?_append_of_notfound {α : Type} {p : α → Bool} {l₁ l₂ : List α}
    (h : ∀ e ∈ l₁, ¬ p e = true) : (l₁ ++ l₂).find? p = l₂.find? p := by
  induction l₁ with
  | nil => rfl
  | cons a rest ih =>
    rw [List.cons_append, List.find?_cons_of_neg _ (h a (by simp))]
    exact ih (fun e he => h e (List.mem_cons_of_mem _ he))

theorem markFirst_append_none {l₁ l₂ : List (GroupEntry P)} {g : List P}
    {st : GStatus} (h : ∀ e ∈ l₁, e.paths ≠ g) :
    markFirstByPaths (l₁ ++ l₂) g st = l₁ ++ markFirstByPaths l₂ g st := by
  induction l₁ with
  | nil => rfl
  | cons a rest ih =>
    rw [List.cons_append, markFirstByPaths, if_neg (h a (by simp)),
      ih (fun e he => h e (List.mem_cons_of_mem _ he)), List.cons_append]

theorem keepFirstAttempts_cons (p : P) (ps : List P) :
    (p :: ps).filter (fun q => decide (q ≠ p)) = keepFirstAttempts (p :: ps) := by
  rw [keepFirstAttempts, List.filter_cons]
  simp


/-- What one auto-resolution step does to the state: it deletes every path
of the entry but the first, removes exactly that entry (when ids are
unique), and leaves the flag alone. -/
theorem confirm_on_entry (env : AppEnv P) (s : AppState P) (e : GroupEntry P)
    (p₀ : P) (ps : List P) (hcons : e.paths = p₀ :: ps)
    (hmem : e ∈ s.all_duplicates)
    (hnodup : (s.all_duplicates.map GroupEntry.paths).Nodup) :
    (confirm_selection env (selectEntry s e)).2 = keepFirstAttempts e.paths ∧
    (confirm_selection env (selectEntry s e)).1.all_duplicates =
      s.all_duplicates.filter (fun d => decide (d.id ≠ e.id)) ∧
    (confirm_selection env (selectEntry s e)).1.auto_delete_active =
      s.auto_delete_active := by
  have hfind : s.all_duplicates.find? (fun e' => decide (e'.paths = p₀ :: ps)) =
      some e := by
    rw [← hcons]
    exact find?_paths_self hnodup hmem
  have hmark : ∀ d ∈ s.all_duplicates, d.paths = p₀ :: ps → d.id = e.id := by
    intro d hd hp
    have hde : d = e := List.inj_on_of_nodup_map hnodup hd hmem (by rw [hp, hcons])
    rw [hde]
  refine ⟨?_, ?_, ?_⟩ <;>
    simp only [selectEntry, confirm_selection, hcons, List.head?_cons, hfind,
      clearViewer, removeById, markFirst_filter_id hmark, keepFirstAttempts_cons]


/-- The drain of `start_auto_delete`: with distinct ids and distinct path
lists, every pending entry of the copy is resolved (first path kept, the
rest attempted), and no pending entry survives. -/
theorem drainLoop_spec (env : AppEnv P) :
    ∀ (l : List (GroupEntry P)) (s : AppState P),
      (∀ e ∈ l, e.status = GStatus.pending → e ∈ s.all_duplicates) →
      ((s.all_duplicates.map GroupEntry.paths).Nodup) →
      ((s.all_duplicates.map GroupEntry.id).Nodup) →
      ((l.map GroupEntry.id).Nodup) →
      (∀ e' ∈ s.all_duplicates, e'.status = GStatus.pending → e' ∈ l) →
      (∀ e ∈ l, e.status = GStatus.pending → e.paths ≠ []) →
      (drainLoop env l s).2 =
        ((l.filter (fun e => decide (e.status = GStatus.pending))).map
          (fun e => keepFirstAttempts e.paths)).flatten ∧
      ∀ e' ∈ (drainLoop env l s).1.all_duplicates, e'.status ≠ GStatus.pending := by
  intro l
  induction l with
  | nil =>
    intro s h1 h2 h3 h4 h5 h6
    refine ⟨rfl, ?_⟩
    intro e' he' hpend
    exact absurd (h5 e' he' hpend) (List.not_mem_nil e')
  | cons e rest ih =>
    intro s h1 h2 h3 h4 h5 h6
    rw [drainLoop]
    by_cases hp : e.status = GStatus.pending
    · rw [if_pos hp]
      have hne := h6 e (by simp) hp
      obtain ⟨p₀, ps, hcons⟩ : ∃ p₀ ps, e.paths = p₀ :: ps := by
        cases hpa : e.paths with
        | nil => exact absurd hpa hne
        | cons a b => exact ⟨a, b, rfl⟩
      have hmem := h1 e (by simp) hp
      obtain ⟨hatt, hall, hauto⟩ := confirm_on_entry env s e p₀ ps hcons hmem h2
      rw [List.map_cons, List.nodup_cons] at h4
      have hinv1 : ∀ e2 ∈ rest, e2.status = GStatus.pending →
          e2 ∈ (confirm_selection env (selectEntry s e)).1.all_duplicates := by
        intro e2 he2 hp2
        rw [hall, List.mem_filter]
        refine ⟨h1 e2 (List.mem_cons_of_mem _ he2) hp2, ?_⟩
        simp only [decide_eq_true_eq]
        intro hid
        exact h4.1 (hid ▸ List.mem_map_of_mem GroupEntry.id he2)
      have hinv2 : ((confirm_selection env (selectEntry s e)).1.all_duplicates.map
          GroupEntry.paths).Nodup := by
        rw [hall]
        exact ((List.filter_sublist _).map _).nodup h2
      have hinv3 : ((confirm_selection env (selectEntry s e)).1.all_duplicates.map
          GroupEntry.id).Nodup := by
        rw [hall]
        exact ((List.filter_sublist _).map _).nodup h3
      have hinv5 : ∀ e' ∈ (confirm_selection env (selectEntry s e)).1.all_duplicates,
          e'.status = GStatus.pending → e' ∈ rest := by
        intro e' he' hp'
        rw [hall, List.mem_filter] at he'
        obtain ⟨hmem', hid'⟩ := he'
        simp only [decide_eq_true_eq] at hid'
        rcases List.mem_cons.mp (h5 e' hmem' hp') with rfl | hr
        · exact absurd rfl hid'
        · exact hr
      have hinv6 : ∀ e2 ∈ rest, e2.status = GStatus.pending → e2.paths ≠ [] :=
        fun e2 he2 => h6 e2 (List.mem_cons_of_mem _ he2)
      obtain ⟨ihatt, ihpend⟩ :=
        ih (confirm_selection env (selectEntry s e)).1 hinv1 hinv2 hinv3 h4.2 hinv5 hinv6
      constructor
      · rw [List.filter_cons, if_pos (by simp [hp]), List.map_cons,
          List.flatten_cons, hatt, ihatt]
      · exact ihpend
    · rw [if_neg hp]
      have hinv1 : ∀ e2 ∈ rest, e2.status = GStatus.pending →
          e2 ∈ s.all_duplicates :=
        fun e2 he2 => h1 e2 (List.mem_cons_of_mem _ he2)
      have hinv5 : ∀ e' ∈ s.all_duplicates, e'.status = GStatus.pending →
          e' ∈ rest := by
        intro e' he' hp'
        rcases List.mem_cons.mp (h5 e' he' hp') with rfl | hr
        · exact absurd hp' hp
        · exact hr
      have hinv6 : ∀ e2 ∈ rest, e2.status = GStatus.pending → e2.paths ≠ [] :=
        fun e2 he2 => h6 e2 (List.mem_cons_of_mem _ he2)
      rw [List.map_cons, List.nodup_cons] at h4
      obtain ⟨ihatt, ihpend⟩ := ih s hinv1 h2 h3 h4.2 hinv5 hinv6
      constructor
      · rw [List.filter_cons, if_neg (by simp [hp]), ihatt]
      · exact ihpend


/-- A group arriving while auto-resolve is active, whose path list no
registered entry shares, is resolved immediately: the first path is kept,
the rest attempted, and no entry with that path list stays registered. -/
theorem registerGroup_auto_fresh (env : AppEnv P) (s : AppState P) (g : List P)
    (hauto : s.auto_delete_active = true) (hlen : 1 < g.length)
    (hfresh : ∀ e ∈ s.all_duplicates, e.paths ≠ g) :
    (registerGroup env s g).2 = keepFirstAttempts g ∧
    ∀ e' ∈ (registerGroup env s g).1.all_duplicates, e'.paths ≠ g := by
  cases g with
  | nil => simp at hlen
  | cons p₀ ps =>
    have hfind : (s.all_duplicates ++
        ([⟨s.all_duplicates.length, p₀ :: ps, GStatus.pending⟩] : List (GroupEntry P))).find?
        (fun e' => decide (e'.paths = p₀ :: ps)) =
        some (⟨s.all_duplicates.length, p₀ :: ps, GStatus.pending⟩ : GroupEntry P) := by
      rw [find?_append_of_notfound (by intro e he; simp [hfresh e he])]
      exact List.find?_cons_of_pos _ (by simp)
    have hmark : markFirstByPaths
        (s.all_duplicates ++
          ([⟨s.all_duplicates.length, p₀ :: ps, GStatus.pending⟩] : List (GroupEntry P)))
        (p₀ :: ps) GStatus.kept_one =
        s.all_duplicates ++
          ([⟨s.all_duplicates.length, p₀ :: ps, GStatus.kept_one⟩] : List (GroupEntry P)) := by
      rw [markFirst_append_none hfresh, markFirstByPaths,
        if_pos (show GroupEntry.paths ⟨s.all_duplicates.length, p₀ :: ps,
          GStatus.pending⟩ = p₀ :: ps from rfl)]
    constructor
    · rw [registerGroup, if_pos hlen, if_pos hauto]
      simp only [confirm_selection, List.head?_cons, hfind, hmark, removeById,
        clearViewer, keepFirstAttempts_cons]
    · intro e' he'
      rw [registerGroup, if_pos hlen, if_pos hauto] at he'
      simp only [confirm_selection, List.head?_cons, hfind, hmark, removeById,
        clearViewer] at he'
      rw [List.filter_append, List.mem_append] at he'
      rcases he' with hmem | hmem
      · exact hfresh e' (List.mem_of_mem_filter hmem)
      · rw [List.mem_filter] at hmem
        exfalso
        have := hmem.2
        simp at this
        exact this (List.mem_singleton.mp hmem.1 ▸ rfl)

/-- C6 (amended): provided the registered groups carry pairwise-distinct
identifiers and pairwise-distinct path lists (which the identifier-reuse
bug can violate) and each has at least two paths, turning auto-resolve on
drains the backlog: every pending group is resolved by keeping its first
path and attempting deletion of the rest, and no pending group remains;
and any group arriving while auto-resolve is active, whose path list is
fresh, is resolved immediately the same way. -/
theorem claim6_auto_resolve_amended (env : AppEnv P) (s : AppState P) (g : List P) :
    (((s.all_duplicates.map GroupEntry.paths).Nodup) →
      ((s.all_duplicates.map GroupEntry.id).Nodup) →
      (∀ e ∈ s.all_duplicates, 2 ≤ e.paths.length) →
      ((start_auto_delete env s).2 =
        ((s.all_duplicates.filter (fun e => decide (e.status = GStatus.pending))).map
          (fun e => keepFirstAttempts e.paths)).flatten ∧
       ∀ e' ∈ (start_auto_delete env s).1.all_duplicates,
         e'.status ≠ GStatus.pending)) ∧
    (s.auto_delete_active = true → 1 < g.length →
      (∀ e ∈ s.all_duplicates, e.paths ≠ g) →
      ((registerGroup env s g).2 = keepFirstAttempts g ∧
       ∀ e' ∈ (registerGroup env s g).1.all_duplicates, e'.paths ≠ g)) := by
  constructor
  · intro hnp hni hlen2
    rw [start_auto_delete]
    exact drainLoop_spec env s.all_duplicates { s with auto_delete_active := true }
      (fun e he _ => he) hnp hni hni (fun e he _ => he)
      (fun e he hp => by
        intro hnil
        have := hlen2 e he
        rw [hnil] at this
        simp at this)
  · intro hauto hlen hfresh
    exact registerGroup_auto_fresh env s g hauto hlen hfresh

/-- Counterexample to C6 as stated: in the (reachable) state `c6s4` two
pending groups share identifier 1; turning auto-resolve on resolves the
first, whose removal-by-id also evicts the second, so the drain never
deletes paths 4 and 5: the only deletion attempted is path 3, yet the group
[4, 5] was pending when the flag was switched on. -/
theorem claim6_counterexample :
    (⟨1, [4, 5], GStatus.pending⟩ : GroupEntry Nat) ∈ c6s4.all_duplicates ∧
    (start_auto_delete c6Env c6s4).2 = [3] ∧
    (start_auto_delete c6Env c6s4).1.all_duplicates = [] := by decide

/-- Witness for the amended C6 at a concrete well-formed state. -/
theorem claim6_witness :
    ((((c6wState.all_duplicates.map GroupEntry.paths).Nodup) →
      ((c6wState.all_duplicates.map GroupEntry.id).Nodup) →
      (∀ e ∈ c6wState.all_duplicates, 2 ≤ e.paths.length) →
      ((start_auto_delete c6wEnv c6wState).2 =
        ((c6wState.all_duplicates.filter
            (fun e => decide (e.status = GStatus.pending))).map
          (fun e => keepFirstAttempts e.paths)).flatten ∧
       ∀ e' ∈ (start_auto_delete c6wEnv c6wState).1.all_duplicates,
         e'.status ≠ GStatus.pending)) ∧
    (c6wState.auto_delete_active = true → 1 < ([5, 6] : List Nat).length →
      (∀ e ∈ c6wState.all_duplicates, e.paths ≠ [5, 6]) →
      ((registerGroup c6wEnv c6wState [5, 6]).2 = keepFirstAttempts [5, 6] ∧
       ∀ e' ∈ (registerGroup c6wEnv c6wState [5, 6]).1.all_duplicates,
         e'.paths ≠ [5, 6]))) :=
  claim6_auto_resolve_amended c6wEnv c6wState [5, 6]


/-- C8: resolving the current group attempts deletion of exactly the
non-kept paths (all paths when nothing is selected), never the kept one; a
single failure does not stop the remaining attempts (every such path is in
the attempt list regardless of `deleteOk`); the number of successful
deletions is added to the deleted-pictures counter; and the group's entry
is removed from the active list. -/
theorem claim8_resolution (env : AppEnv P) (s : AppState P) (g : List P)
    (ent : GroupEntry P)
    (hcur : s.current_pair_paths = some g)
    (hfind : s.all_duplicates.find? (fun e => decide (e.paths = g)) = some ent) :
    (∀ keep, s.selected_image_path = some keep →
      ((confirm_selection env s).2 = g.filter (fun p => decide (p ≠ keep)) ∧
       keep ∉ (confirm_selection env s).2 ∧
       (confirm_selection env s).1.deleted_pictures_count =
         s.deleted_pictures_count +
           (((confirm_selection env s).2).filter env.deleteOk).length ∧
       ∀ e' ∈ (confirm_selection env s).1.all_duplicates, e'.id ≠ ent.id)) ∧
    (s.selected_image_path = none →
      ((confirm_selection env s).2 = g ∧
       (confirm_selection env s).1.deleted_pictures_count =
         s.deleted_pictures_count + (g.filter env.deleteOk).length ∧
       ∀ e' ∈ (confirm_selection env s).1.all_duplicates, e'.id ≠ ent.id)) := by
  constructor
  · intro keep hk
    refine ⟨?_, ?_, ?_, ?_⟩
    · simp only [confirm_selection, hcur, hk, hfind, clearViewer, removeById]
    · simp only [confirm_selection, hcur, hk, hfind, clearViewer, removeById]
      simp [List.mem_filter]
    · simp only [confirm_selection, hcur, hk, hfind, clearViewer, removeById]
    · intro e' he'
      simp only [confirm_selection, hcur, hk, hfind, clearViewer, removeById] at he'
      rw [List.mem_filter] at he'
      have := he'.2
      simpa using this
  · intro hnone
    refine ⟨?_, ?_, ?_⟩
    · simp only [confirm_selection, hcur, hnone, hfind, clearViewer, removeById]
    · simp only [confirm_selection, hcur, hnone, hfind, clearViewer, removeById]
    · intro e' he'
      simp only [confirm_selection, hcur, hnone, hfind, clearViewer, removeById] at he'
      rw [List.mem_filter] at he'
      have := he'.2
      simpa using this

/-- Witness for C8 at a concrete state with group [0, 1, 2] and path 1
selected to keep. -/
theorem claim8_witness :
    (c8s.current_pair_paths = some [0, 1, 2] ∧
     c8s.all_duplicates.find? (fun e => decide (e.paths = [0, 1, 2])) =
       some (⟨0, [0, 1, 2], GStatus.pending⟩ : GroupEntry Nat)) ∧
    (∀ keep, c8s.selected_image_path = some keep →
      ((confirm_selection c8Env c8s).2 =
          [0, 1, 2].filter (fun p => decide (p ≠ keep)) ∧
       keep ∉ (confirm_selection c8Env c8s).2 ∧
       (confirm_selection c8Env c8s).1.deleted_pictures_count =
         c8s.deleted_pictures_count +
           (((confirm_selection c8Env c8s).2).filter c8Env.deleteOk).length ∧
       ∀ e' ∈ (confirm_selection c8Env c8s).1.all_duplicates,
         e'.id ≠ (⟨0, [0, 1, 2], GStatus.pending⟩ : GroupEntry Nat).id)) ∧
    (c8s.selected_image_path = none →
      ((confirm_selection c8Env c8s).2 = [0, 1, 2] ∧
       (confirm_selection c8Env c8s).1.deleted_pictures_count =
         c8s.deleted_pictures_count + ([0, 1, 2].filter c8Env.deleteOk).length ∧
       ∀ e' ∈ (confirm_selection c8Env c8s).1.all_duplicates,
         e'.id ≠ (⟨0, [0, 1, 2], GStatus.pending⟩ : GroupEntry Nat).id)) := by
  refine ⟨⟨rfl, by decide⟩, ?_, ?_⟩
  · exact (claim8_resolution c8Env c8s [0, 1, 2] ⟨0, [0, 1, 2], GStatus.pending⟩
      rfl (by decide)).1
  · exact (claim8_resolution c8Env c8s [0, 1, 2] ⟨0, [0, 1, 2], GStatus.pending⟩
      rfl (by decide)).2

end DSU

end DupFinder
